import Mathlib

/-!
Shallow embedding of the dr-todo core (package `drtodo`, file `src/unnamed/part_000`)
and proofs about the claims of its specification.

Go strings are modeled as `List Char` (the code iterates runes); Go's standard
library string helpers used by the source (`strings.Split`, `strings.Join`,
`strings.Trim`, `strings.ReplaceAll`, `bufio.Reader.ReadString`) are re-defined
below with their Go semantics.  The ordered map `ordmap.OrdMap` is modeled as an
association list in insertion order (`Set` updates in place when the key exists,
otherwise appends), which is the documented behavior the code relies on.
Filesystem effects are modeled by passing the store directory explicitly as a
list of (filename, content) pairs; `time.Now()` becomes an explicit `Date`
argument.
-/

set_option maxHeartbeats 1000000
set_option maxRecDepth 4096
set_option linter.unnecessarySimpa false
set_option linter.unusedVariables false

namespace DrTodo

/-- Go strings, modeled as rune lists. -/
abbrev Str := List Char

instance instDecEqExcept {ε α : Type} [DecidableEq ε] [DecidableEq α] :
    DecidableEq (Except ε α) := fun a b =>
  match a, b with
  | .ok x, .ok y =>
    if h : x = y then isTrue (by rw [h]) else isFalse (by intro hc; cases hc; exact h rfl)
  | .error x, .error y =>
    if h : x = y then isTrue (by rw [h]) else isFalse (by intro hc; cases hc; exact h rfl)
  | .ok _, .error _ => isFalse (by intro hc; cases hc)
  | .error _, .ok _ => isFalse (by intro hc; cases hc)

/-- Convenience injection of Lean string literals into `Str`. -/
def lit (s : String) : Str := s.toList

/-- `startsWith pat s` holds when `pat` is a leading segment of `s`. -/
def startsWith : Str → Str → Bool
  | [], _ => true
  | _ :: _, [] => false
  | p :: ps, c :: cs => p == c && startsWith ps cs

/-- `containsSub pat s`: `pat` occurs contiguously somewhere in `s`. -/
def containsSub (pat : Str) : Str → Bool
  | [] => pat.isEmpty
  | c :: rest => startsWith pat (c :: rest) || containsSub pat rest

/-- Worker for `splitSub`, structurally recursive on the subject string.
`pending` is the not-yet-consumed tail of a separator occurrence that was
already detected (so those characters are skipped without re-matching). -/
def splitSubGo (sep : Str) : Str → Str → List Str
  | _ :: ps, _ :: rest => splitSubGo sep ps rest
  | _ :: _, [] => [[]]
  | [], [] => [[]]
  | [], c :: rest =>
    if startsWith sep (c :: rest) && !sep.isEmpty then
      [] :: splitSubGo sep (List.drop 1 sep) rest
    else
      match splitSubGo sep [] rest with
      | [] => [[c]]
      | seg :: segs => (c :: seg) :: segs

/-- Go `strings.Split(s, sep)` for non-empty `sep`: the list of segments of `s`
separated by the occurrences of `sep`, scanned left to right. -/
def splitSub (sep : Str) (s : Str) : List Str := splitSubGo sep [] s

/-- Go `strings.Join(parts, sep)`. -/
def joinSep (sep : Str) : List Str → Str
  | [] => []
  | [s] => s
  | s :: rest => s ++ sep ++ joinSep sep rest

/-- `hasChar c s`: the character `c` occurs in `s`. -/
def hasChar (c : Char) (s : Str) : Bool := s.any (fun x => x == c)

/-- Strip every leading character belonging to the cutset. -/
def trimLeftChars (cut : List Char) : Str → Str
  | [] => []
  | c :: rest => if hasChar c cut then trimLeftChars cut rest else c :: rest

/-- Go `strings.Trim(s, cutset)`: strip cutset characters from both ends. -/
def trimChars (cut : List Char) (s : Str) : Str :=
  (trimLeftChars cut (trimLeftChars cut s).reverse).reverse

/-- Go `strings.ReplaceAll(s, " ", "")`, as used on checkbox prefixes. -/
def removeSpaces (s : Str) : Str := s.filter (fun c => !(c == ' '))

/-- Embeds the Go struct `Todo` (fields `ListID`, `Name`, `Completed`). -/
structure Todo where
  listID : Str
  name : Str
  completed : Bool
deriving DecidableEq, Repr

/-- Embeds Go `Todo.String()`: `"- [ ] name"` / `"- [x] name"`. -/
def Todo.render (t : Todo) : Str :=
  (if t.completed then lit "- [x]" else lit "- [ ]") ++ [' '] ++ t.name

/-- The two `ParseTodo` failure modes (Go wraps them as error strings
`"missing checkbox"` and `"invalid checkbox string '<literal>'"`). -/
inductive TodoErr where
  | missingCheckbox
  | invalidCheckbox (literal : Str)
deriving DecidableEq, Repr

/-- Embeds Go `ParseTodo(listID, input)`: split on `"]"`; fewer than two parts
is a missing checkbox; the space-stripped first part plus `"]"` must be exactly
`-[]` or `-[x]`; the name is the second part trimmed of spaces and newlines. -/
def ParseTodo (listID input : Str) : Except TodoErr Todo :=
  match splitSub (lit "]") input with
  | p0 :: p1 :: _ =>
    let checkbox := removeSpaces (p0 ++ lit "]")
    if checkbox = lit "-[]" then
      .ok { listID := listID, name := trimChars [' ', '\n'] p1, completed := false }
    else if checkbox = lit "-[x]" then
      .ok { listID := listID, name := trimChars [' ', '\n'] p1, completed := true }
    else
      .error (.invalidCheckbox checkbox)
  | _ => .error .missingCheckbox

/-- The reserved list-path separator (Go constant `listSep = ":@>"`). -/
def listSep : Str := lit ":@>"

/-- Embeds the Go struct `listName` (a heading name with its literal depth). -/
structure ListName where
  name : Str
  depth : Nat
deriving DecidableEq, Repr

/-- Cutset used when trimming heading lines (Go `strings.Trim(input, " #\n")`). -/
def headerCut : List Char := [' ', '#', '\n']

/-- Worker for the depth computation in Go `getHeaderWithDepth`: the index of
the first character that is not `'#'`, or `0` if every character is `'#'`
(the Go loop leaves `depth` at its zero value when it never breaks). -/
def headerDepthAux : Nat → Str → Nat
  | _, [] => 0
  | idx, c :: rest => if c = '#' then headerDepthAux (idx + 1) rest else idx

/-- Embeds Go `getHeaderWithDepth`: trimmed heading text and leading-`#` count. -/
def getHeaderWithDepth (input : Str) : Str × Nat :=
  (trimChars headerCut input, headerDepthAux 0 input)

/-- The pop loop of the `d < depth` branch of Go `parseList`, acting on the
reversed stack (top element first): pop while the top's depth is `≥ d`. -/
def popWhileGE (d : Nat) : List ListName → List ListName
  | [] => []
  | ln :: rest => if ln.depth ≥ d then popWhileGE d rest else ln :: rest

/-- Heading-stack update on a heading with the given name and literal depth
(the body of the `line[0] == '#'` branch of Go `parseList`).  The Go stack
grows at the end of the slice; `depth` is the top's depth, or `0` when empty.
(The `d = depth` branch with an empty stack would index out of range in Go; it
is unreachable because a processed heading line always yields `d ≥ 1`.) -/
def stepHeadingND (stack : List ListName) (name : Str) (d : Nat) : List ListName :=
  let depth := (stack.getLast?.map ListName.depth).getD 0
  let ln : ListName := { name := name, depth := d }
  if d > depth then stack ++ [ln]
  else if d = depth then stack.dropLast ++ [ln]
  else (popWhileGE d stack.reverse).reverse ++ [ln]

/-- Embeds the heading branch of Go `parseList` on a raw heading line. -/
def stepHeading (stack : List ListName) (rawLine : Str) : List ListName :=
  let nd := getHeaderWithDepth rawLine
  stepHeadingND stack nd.1 nd.2

/-- The sublists map: association list in insertion order, embedding
`ordmap.OrdMap[string, []Todo]` as the code uses it. -/
abbrev Sublists := List (Str × List Todo)

/-- `OrdMap.Get`: the value stored at a key, or `nil` (`[]`) when absent. -/
def ordGet (m : Sublists) (k : Str) : List Todo :=
  match m.find? (fun e => e.1 == k) with
  | some e => e.2
  | none => []

/-- `OrdMap.Set`: update in place when the key exists, else append (insertion
order of first occurrence is preserved). -/
def ordSet (m : Sublists) (k : Str) (v : List Todo) : Sublists :=
  if m.any (fun e => e.1 == k) then
    m.map (fun e => if e.1 == k then (k, v) else e)
  else
    m ++ [(k, v)]

/-- Worker for `readLines`: `acc` is the current (unterminated) line so far.
A final fragment without `'\n'` is discarded, exactly as Go `parseList` breaks
out of its loop on `io.EOF` without processing the returned partial line. -/
def readLinesGo : Str → Str → List Str
  | _, [] => []
  | acc, c :: rest =>
    if c = '\n' then (acc ++ ['\n']) :: readLinesGo [] rest
    else readLinesGo (acc ++ [c]) rest

/-- The sequence of `'\n'`-terminated lines `bufio.Reader.ReadString('\n')`
hands to the Go loop (each includes its newline; an unterminated tail is
dropped with the `io.EOF` break). -/
def readLines (s : Str) : List Str := readLinesGo [] s

/-- The main loop of Go `parseList` over the terminated lines: blank lines are
skipped, heading lines update the stack, anything else must parse as a todo
and is appended to the map entry of the joined stack path. -/
def parseLines : List ListName → Sublists → List Str → Except TodoErr Sublists
  | _, sublists, [] => .ok sublists
  | stack, sublists, line :: rest =>
    match line with
    | [] => parseLines stack sublists rest
    | c :: _ =>
      if c = '\n' then parseLines stack sublists rest
      else if c = '#' then parseLines (stepHeading stack line) sublists rest
      else
        let listID := joinSep listSep (stack.map ListName.name)
        match ParseTodo listID line with
        | .error e => .error e
        | .ok todo =>
          parseLines stack (ordSet sublists listID (ordGet sublists listID ++ [todo])) rest

/-- Embeds Go `parseList`: the resulting sublists map of a document. (The `[]`
line case above is unreachable: every line produced by `readLines` contains its
terminating newline; Go would panic on `line[0]` there.) -/
def parseList (doc : Str) : Except TodoErr Sublists :=
  parseLines [] [] (readLines doc)

/-- Embeds the Go struct `List`: a display name plus the sublists map. -/
structure DrList where
  name : Str
  sublists : Sublists
deriving DecidableEq, Repr

/-- Embeds Go `ParseList(name, reader)`: parse and attach the display name. -/
def ParseList (name : Str) (doc : Str) : Except TodoErr DrList :=
  match parseList doc with
  | .error e => .error e
  | .ok subs => .ok { name := name, sublists := subs }

/-- `strings.Repeat("#", n)`. -/
def hashes (n : Nat) : Str := List.replicate n '#'

/-- One path group of `List.Dump`: the heading regenerated from the path (as
many `#` as path components, then the last component), then the group's todos,
skipping completed ones when `omitCompleted` is set. -/
def dumpGroup (omitCompleted : Bool) (entry : Str × List Todo) : Str :=
  let parts := splitSub listSep entry.1
  hashes parts.length ++ [' '] ++ parts.getLastD [] ++ ['\n'] ++
    List.flatten ((entry.2.filter (fun t => !omitCompleted || !t.completed)).map
      (fun t => t.render ++ ['\n']))

/-- Embeds Go `List.Dump(w, omitCompleted)` as the full text written to `w`:
path groups in map order, separated by exactly one extra `"\n"` before every
group but the first.  Note the list's `Name` field is never written. -/
def DrList.Dump (l : DrList) (omitCompleted : Bool) : Str :=
  joinSep ['\n'] (l.sublists.map (dumpGroup omitCompleted))

/-- Calendar dates as parsed by `time.Parse("2006-01-02", ·)`. -/
structure Date where
  y : Nat
  m : Nat
  d : Nat
deriving DecidableEq, Repr

/-- `Date.key` linearizes the calendar order: for dates in the strict
`YYYY-MM-DD` shape (`m`, `d` two digits) this agrees with `time.Time` order. -/
def Date.key (dt : Date) : Nat := dt.y * 10000 + dt.m * 100 + dt.d

def isLeap (y : Nat) : Bool := (y % 4 = 0 && y % 100 ≠ 0) || y % 400 = 0

def daysInMonth (y m : Nat) : Nat :=
  if m = 2 then (if isLeap y then 29 else 28)
  else if m = 4 || m = 6 || m = 9 || m = 11 then 30
  else 31

def digitVal (c : Char) : Option Nat :=
  if '0' ≤ c && c ≤ '9' then some (c.toNat - '0'.toNat) else none

/-- Embeds Go `ParseDate` (strict `time.Parse` with layout `2006-01-02`):
exactly ten characters, four year digits, two month digits, two day digits,
month and day validated against the calendar. -/
def ParseDate (s : Str) : Option Date :=
  match s with
  | [y1, y2, y3, y4, h1, m1, m2, h2, d1, d2] =>
    if h1 = '-' && h2 = '-' then
      match digitVal y1, digitVal y2, digitVal y3, digitVal y4,
            digitVal m1, digitVal m2, digitVal d1, digitVal d2 with
      | some a, some b, some c, some e, some f, some g, some i, some j =>
        let y := a * 1000 + b * 100 + c * 10 + e
        let m := f * 10 + g
        let d := i * 10 + j
        if 1 ≤ m && m ≤ 12 && 1 ≤ d && d ≤ daysInMonth y m then
          some { y := y, m := m, d := d }
        else none
      | _, _, _, _, _, _, _, _ => none
    else none
  | _ => none

def digitChar (n : Nat) : Char := Char.ofNat ('0'.toNat + n % 10)

/-- Embeds Go `FormatDate`: zero-padded `YYYY-MM-DD`. -/
def FormatDate (dt : Date) : Str :=
  [digitChar (dt.y / 1000), digitChar (dt.y / 100), digitChar (dt.y / 10), digitChar dt.y,
   '-', digitChar (dt.m / 10), digitChar dt.m, '-', digitChar (dt.d / 10), digitChar dt.d]

/-- Errors of the dated list store and carry-over engine.  In Go these are
distinct error values: `ErrListNotFound` is compared by identity, the others
are wrapped message errors. -/
inductive StoreErr where
  | malformedFilename
  | dateParse
  | listNotFound
  | openFailed
  | alreadyExists (fname : Str)
  | todo (e : TodoErr)
deriving DecidableEq, Repr

/-- The date-collection loop of Go `GetSortedListPaths`: each directory entry
name must split on `"."` into exactly two parts and its stem must parse as a
date; the first failure aborts the whole scan. -/
def parseEntryDates : List Str → Except StoreErr (List Date)
  | [] => .ok []
  | e :: rest =>
    match splitSub (lit ".") e with
    | [stem, _] =>
      match ParseDate stem with
      | none => .error .dateParse
      | some dt =>
        match parseEntryDates rest with
        | .error err => .error err
        | .ok ds => .ok (dt :: ds)
    | _ => .error .malformedFilename

/-- Insert into a descending-by-`key` list, after existing equal keys. -/
def insertDesc (dt : Date) : List Date → List Date
  | [] => [dt]
  | x :: xs => if x.key < dt.key then dt :: x :: xs else x :: insertDesc dt xs

/-- Descending sort by date.  Go uses the unstable `slices.SortFunc` with
comparator `b.Compare(a)`; a stable insertion sort is observationally equal
here because equal dates regenerate identical paths. -/
def sortDatesDesc : List Date → List Date
  | [] => []
  | x :: xs => insertDesc x (sortDatesDesc xs)

/-- `filepath.Join(dir, name)` for the shapes used here (an empty `dir` is
dropped, matching `filepath.Join("", name) = name`). -/
def joinPath (dir name : Str) : Str :=
  if dir.isEmpty then name else dir ++ ['/'] ++ name

/-- Embeds Go `GetSortedListPaths(path)`: empty directory yields `nil, nil`;
otherwise every entry name is date-parsed and the full paths are regenerated
from the sorted dates as `<dir>/<YYYY-MM-DD>.md` (the original extension is
discarded and replaced by `.md`). -/
def GetSortedListPaths (dir : Str) (entries : List Str) : Except StoreErr (List Str) :=
  if entries.isEmpty then .ok []
  else
    match parseEntryDates entries with
    | .error e => .error e
    | .ok dates =>
      .ok ((sortDatesDesc dates).map (fun dt => joinPath dir (FormatDate dt ++ lit ".md")))

/-- The store directory: filenames with contents, as `os.ReadDir` lists it.
The home directory itself is modeled as the root (`dir = ""`), so the full
path of an entry is its filename — `filepath.Join("", f) = f` in Go. -/
abbrev FS := List (Str × Str)

/-- `os.Open`/`os.Stat` against the modeled directory. -/
def lookupFile (fs : FS) (path : Str) : Option Str :=
  match fs.find? (fun e => e.1 == path) with
  | some e => some e.2
  | none => none

/-- `strings.TrimSuffix(base, filepath.Ext(base))`: drop the last `.`-suffix
(if any) of a filename. -/
def stemOf (s : Str) : Str :=
  let parts := splitSub (lit ".") s
  if parts.length ≤ 1 then s else joinSep (lit ".") parts.dropLast

/-- Embeds Go `GetLatestList(path)` over the modeled directory: sort the
paths, `ErrListNotFound` when there are none, open the first, parse it with
the file stem as display name. -/
def GetLatestList (fs : FS) : Except StoreErr DrList :=
  match GetSortedListPaths [] (fs.map Prod.fst) with
  | .error e => .error e
  | .ok paths =>
    match paths with
    | [] => .error .listNotFound
    | p :: _ =>
      match lookupFile fs p with
      | none => .error .openFailed
      | some content =>
        match ParseList (stemOf p) content with
        | .error e => .error (.todo e)
        | .ok l => .ok l

/-- Today's list filename, `FormatDate(time.Now()) + ".md"`. -/
def todayFname (today : Date) : Str := FormatDate today ++ lit ".md"

/-- Embeds Go `DrTodo.CreateToday` with `time.Now()` made explicit: fail if
today's file exists; fetch the latest list, replacing `ErrListNotFound` by the
zero-value `List{}` (empty map); set the display name to `"TODO <today>"`;
write the dump with `omitCompleted = true` to the new file.  Returns the
updated directory and the created path. -/
def CreateToday (fs : FS) (today : Date) : Except StoreErr (FS × Str) :=
  let fname := todayFname today
  match lookupFile fs fname with
  | some _ => .error (.alreadyExists fname)
  | none =>
    match
      (match GetLatestList fs with
       | .error e => if e = .listNotFound then .ok { name := [], sublists := [] } else .error e
       | .ok l => .ok l : Except StoreErr DrList) with
    | .error e => .error e
    | .ok latest =>
      let latest : DrList := { latest with name := lit "TODO " ++ FormatDate today }
      .ok (fs ++ [(fname, latest.Dump true)], fname)

example : ParseDate (lit "2024-02-29") = some { y := 2024, m := 2, d := 29 } := by decide
example : ParseDate (lit "2023-02-29") = none := by decide
example : FormatDate { y := 2024, m := 2, d := 9 } = lit "2024-02-09" := by decide
example :
    GetSortedListPaths (lit "h")
      [lit "2024-01-02.md", lit "2024-01-03.md", lit "2024-01-01.md"] =
    .ok [lit "h/2024-01-03.md", lit "h/2024-01-02.md", lit "h/2024-01-01.md"] := by decide
example : CreateToday [] { y := 2024, m := 5, d := 6 } =
    .ok ([(lit "2024-05-06.md", [])], lit "2024-05-06.md") := by decide

example : ParseTodo [] (lit "- [] Test TODO") =
    .ok { listID := [], name := lit "Test TODO", completed := false } := by decide
example : ParseTodo [] (lit "- [x] Test TODO") =
    .ok { listID := [], name := lit "Test TODO", completed := true } := by decide
example : ParseTodo [] (lit "- Test TODO") = .error .missingCheckbox := by decide
example : ParseTodo [] (lit "- [o] Test TODO") =
    .error (.invalidCheckbox (lit "-[o]")) := by decide

/-- The "Valid list" case of the repository test `Test_ParseList`: parse the
document, dump with `omitCompleted = true`, compare with the expected text. -/
example :
    (match ParseList (lit "x") (lit "\n# Test List\n- [] Uncategorized\n\n## Sublist\n- [] Sublist todo\n- [x] Completed sublist todo\n\n# Must Do\n- [] Do stuff\n- [x] Do a thing\n\n### Skipping a depth\n- [] This should get reduced to a depth of 2\n\n# Stretch Goals\n- [] Do a stretch\n") with
     | .ok l => l.Dump true
     | .error _ => []) =
    lit "# Test List\n- [ ] Uncategorized\n\n## Sublist\n- [ ] Sublist todo\n\n# Must Do\n- [ ] Do stuff\n\n## Skipping a depth\n- [ ] This should get reduced to a depth of 2\n\n# Stretch Goals\n- [ ] Do a stretch\n" := by
  decide

/-! ### Definitions modelled from the spec's words (for refinement claims) -/

/-- Modelled from the spec (§4.3, claim C2's wording): the heading-stack update
rules — empty stack or `d` greater than the top's depth: push; `d` equal:
replace the top; `d` less: pop while the top's depth is `≥ d`, then push. -/
def stepSpec (stack : List ListName) (name : Str) (d : Nat) : List ListName :=
  match stack.getLast? with
  | none => stack ++ [{ name := name, depth := d }]
  | some top =>
    if top.depth < d then stack ++ [{ name := name, depth := d }]
    else if d = top.depth then stack.dropLast ++ [{ name := name, depth := d }]
    else (popWhileGE d stack.reverse).reverse ++ [{ name := name, depth := d }]

/-- Path components of a list path: split on the reserved separator. -/
def comps (p : Str) : List Str := splitSub listSep p

/-- The leaf (last) component of a list path. -/
def leafOf (p : Str) : Str := (comps p).getLastD []

/-- Modelled from the spec (§4.4): the lines of one path group — a heading of
as many `#` as the path has components showing only the leaf component, then
the group's todos in order, each completed todo omitted when `omitCompleted`
is set. -/
def specGroupLines (omitCompleted : Bool) (entry : Str × List Todo) : List Str :=
  (hashes (comps entry.1).length ++ ' ' :: leafOf entry.1) ::
    (entry.2.filter (fun t => !(omitCompleted && t.completed))).map Todo.render

/-- Terminate every line with a newline and concatenate. -/
def unlines (ls : List Str) : Str := (ls.map (fun l => l ++ ['\n'])).flatten

/-- Modelled from the spec (§4.4): serialize the groups in map order, with
exactly one blank line between successive groups, none before the first and
none after the last. -/
def specSerialize (l : DrList) (omitCompleted : Bool) : Str :=
  unlines (List.flatten (List.intersperse [([] : Str)]
    (l.sublists.map (specGroupLines omitCompleted))))

/-- Descending-by-key order over dates. -/
def dateGE (a b : Date) : Prop := b.key ≤ a.key

/-- The stack corresponding to an open path: its component names with depths
`d, d+1, d+2, …`. -/
def stackOf (d : Nat) : List Str → List ListName
  | [] => []
  | c :: cs => { name := c, depth := d } :: stackOf (d + 1) cs

/-- The tree-traversal condition on a group sequence, relative to the
components of the previously opened path: each group's path components extend
a prefix of its predecessor's components by exactly one new leaf (and the
first group, with `prev = []`, has exactly one component). -/
def chainCond : List Str → Sublists → Prop
  | _, [] => True
  | prev, (p, _) :: rest =>
    (comps p).length ≤ prev.length + 1 ∧
    (comps p).dropLast = prev.take ((comps p).length - 1) ∧
    chainCond (comps p) rest

/-- The leaf component of a path survives a heading round trip: it is fixed
by header trimming and contains no newline. -/
@[reducible]
def cleanLeaf (p : Str) : Prop :=
  trimChars headerCut (leafOf p) = leafOf p ∧ hasChar '\n' (leafOf p) = false

/-- Invariants of every todo stored by the parser under key `p`. -/
def todoOkP (p : Str) (t : Todo) : Prop :=
  t.listID = p ∧ trimChars [' ', '\n'] t.name = t.name ∧
    hasChar ']' t.name = false ∧ hasChar '\n' t.name = false

/-- Invariants of the sublists map built by the parser: every entry holds a
non-empty todo list whose todos carry the entry's key and clean names, and
the keys are distinct. -/
def subsInv (m : Sublists) : Prop :=
  (∀ e ∈ m, e.2 ≠ [] ∧ ∀ t ∈ e.2, todoOkP e.1 t) ∧ (m.map Prod.fst).Nodup

/-! ### Basic lemmas about the string operations -/

theorem hasChar_nil (c : Char) : hasChar c [] = false := rfl

theorem hasChar_cons (c x : Char) (s : Str) :
    hasChar c (x :: s) = (x == c || hasChar c s) := by
  simp [hasChar, List.any_cons]

theorem hasChar_cons_false {c x : Char} {s : Str} (h : hasChar c (x :: s) = false) :
    x ≠ c ∧ hasChar c s = false := by
  rw [hasChar_cons] at h
  rcases Bool.or_eq_false_iff.mp h with ⟨h1, h2⟩
  exact ⟨by simpa using h1, h2⟩

theorem hasChar_append (c : Char) (a b : Str) :
    hasChar c (a ++ b) = (hasChar c a || hasChar c b) := by
  simp [hasChar, List.any_append]

/-- Splitting on a single character that does not occur returns one segment. -/
theorem splitSub_single_free {c : Char} {s : Str} (h : hasChar c s = false) :
    splitSub [c] s = [s] := by
  induction s with
  | nil => rfl
  | cons x rest ih =>
    rcases hasChar_cons_false h with ⟨hx, hr⟩
    have hsw : startsWith [c] (x :: rest) = false := by
      simp [startsWith, Ne.symm hx]
    have hrec : splitSubGo [c] [] rest = [rest] := ih hr
    simp [splitSub, splitSubGo, hsw, hrec]

/-- Splitting at the first occurrence of a single-character separator. -/
theorem splitSub_single_append {c : Char} (a b : Str) (h : hasChar c a = false) :
    splitSub [c] (a ++ c :: b) = a :: splitSub [c] b := by
  induction a with
  | nil =>
    simp only [List.nil_append]
    have hsw : startsWith [c] (c :: b) = true := by simp [startsWith]
    simp only [splitSub, splitSubGo, hsw, Bool.true_and]
    simp
  | cons x rest ih =>
    rcases hasChar_cons_false h with ⟨hx, hr⟩
    have hsw : startsWith [c] (x :: (rest ++ c :: b)) = false := by
      simp [startsWith, Ne.symm hx]
    have hrec : splitSubGo [c] [] (rest ++ c :: b) = rest :: splitSub [c] b := ih hr
    simp [splitSub, splitSubGo, hsw, hrec]

/-- `splitSub` always returns at least one segment. -/
theorem splitSub_ne_nil (sep s : Str) : splitSub sep s ≠ [] := by
  cases s with
  | nil => simp [splitSub, splitSubGo]
  | cons c rest =>
    simp only [splitSub, splitSubGo]
    by_cases h : (startsWith sep (c :: rest) && !sep.isEmpty) = true
    · simp [h]
    · simp only [h]
      rw [if_neg (by simpa using h)]
      cases splitSubGo sep [] rest with
      | nil => simp
      | cons seg segs => simp

/-- A string free of the separator splits into itself alone. -/
theorem splitSub_free {sep s : Str} (h : containsSub sep s = false) :
    splitSub sep s = [s] := by
  induction s with
  | nil => rfl
  | cons c rest ih =>
    have h2 : startsWith sep (c :: rest) = false ∧ containsSub sep rest = false := by
      simpa [containsSub, Bool.or_eq_false_iff] using h
    have hrec : splitSubGo sep [] rest = [rest] := ih h2.2
    simp [splitSub, splitSubGo, h2.1, hrec]

/-- Scanning cannot match the separator while still inside a separator-free
segment followed by the separator: `":@>"` has no nontrivial self-overlap. -/
theorem startsWith_sep_shift {c : Char} {p rest : Str}
    (h : containsSub listSep (c :: p) = false) :
    startsWith listSep (c :: (p ++ listSep ++ rest)) = false := by
  have hsw : startsWith listSep (c :: p) = false := by
    have := congrArg (fun b => b) h
    simpa [containsSub, Bool.or_eq_false_iff] using
      (Bool.or_eq_false_iff.mp (by simpa [containsSub] using h)).1
  match p with
  | [] => simp [listSep, lit, startsWith]
  | [x] =>
    by_cases hc : c = ':'
    · simp [listSep, lit, startsWith, hc]
    · simp [listSep, lit, startsWith, hc]
  | x :: y :: p' =>
    simp only [listSep, lit, startsWith, List.cons_append] at hsw ⊢
    simpa using hsw

theorem listSep_eq : listSep = [':', '@', '>'] := rfl

/-- Consuming a detected separator occurrence at the head of the scan. -/
theorem splitSubGo_sep_head (t : Str) :
    splitSubGo listSep [] (':' :: '@' :: '>' :: t) = [] :: splitSubGo listSep [] t := by
  rw [show splitSubGo listSep [] (':' :: '@' :: '>' :: t) =
      if (startsWith listSep (':' :: '@' :: '>' :: t) && !listSep.isEmpty) = true then
        [] :: splitSubGo listSep (List.drop 1 listSep) ('@' :: '>' :: t)
      else
        match splitSubGo listSep [] ('@' :: '>' :: t) with
        | [] => [[':']]
        | seg :: segs => (':' :: seg) :: segs from rfl]
  rw [if_pos (by rw [listSep_eq]; simp [startsWith])]
  rw [listSep_eq]
  rfl

/-- Stepping the scan over a character at which no separator occurrence starts. -/
theorem splitSubGo_no_match {c : Char} {s : Str}
    (hsw : startsWith listSep (c :: s) = false) :
    splitSubGo listSep [] (c :: s) =
      match splitSubGo listSep [] s with
      | [] => [[c]]
      | seg :: segs => (c :: seg) :: segs := by
  rw [show splitSubGo listSep [] (c :: s) =
      if (startsWith listSep (c :: s) && !listSep.isEmpty) = true then
        [] :: splitSubGo listSep (List.drop 1 listSep) s
      else
        match splitSubGo listSep [] s with
        | [] => [[c]]
        | seg :: segs => (c :: seg) :: segs from rfl]
  rw [if_neg (by simp [hsw])]

/-- Splitting at the first separator occurrence after a separator-free,
non-overlapping segment. -/
theorem splitSub_sep_append (p rest : Str) (h : containsSub listSep p = false) :
    splitSub listSep (p ++ listSep ++ rest) = p :: splitSub listSep rest := by
  induction p with
  | nil =>
    show splitSubGo listSep [] (listSep ++ rest) = [] :: splitSubGo listSep [] rest
    rw [listSep_eq]
    exact splitSubGo_sep_head rest
  | cons c p' ih =>
    have h' : containsSub listSep p' = false := by
      simpa [containsSub, Bool.or_eq_false_iff] using
        (Bool.or_eq_false_iff.mp (by simpa [containsSub] using h)).2
    have hsw := @startsWith_sep_shift c p' rest h
    have hrec : splitSub listSep (p' ++ listSep ++ rest) =
        p' :: splitSub listSep rest := ih h'
    have hstep : ((c :: p') ++ listSep ++ rest : Str) = c :: (p' ++ listSep ++ rest) := by
      simp
    rw [show splitSub listSep ((c :: p') ++ listSep ++ rest) =
        splitSubGo listSep [] ((c :: p') ++ listSep ++ rest) from rfl, hstep,
      splitSubGo_no_match hsw,
      show splitSubGo listSep [] (p' ++ listSep ++ rest) =
        splitSub listSep (p' ++ listSep ++ rest) from rfl, hrec]

/-- Join after split is the identity (`strings.Join` inverts `strings.Split`). -/
theorem joinSep_cons_cons (sep : Str) (c : Char) (seg : Str) (segs : List Str) :
    joinSep sep ((c :: seg) :: segs) = c :: joinSep sep (seg :: segs) := by
  cases segs with
  | nil => rfl
  | cons s ss => simp [joinSep]

/-- A string starting with the separator decomposes accordingly. -/
theorem startsWith_listSep_elim {s : Str} (h : startsWith listSep s = true) :
    ∃ t, s = ':' :: '@' :: '>' :: t := by
  rw [listSep_eq] at h
  cases s with
  | nil => simp [startsWith] at h
  | cons a s1 =>
    cases s1 with
    | nil => simp [startsWith] at h
    | cons b s2 =>
      cases s2 with
      | nil => simp [startsWith] at h
      | cons c t =>
        simp only [startsWith, Bool.and_eq_true, beq_iff_eq] at h
        obtain ⟨h1, h2, h3, _⟩ := h
        subst h1; subst h2; subst h3
        exact ⟨t, rfl⟩

theorem join_split_aux : ∀ n (s : Str), s.length ≤ n →
    joinSep listSep (splitSub listSep s) = s := by
  intro n
  induction n with
  | zero =>
    intro s hs
    have : s = [] := List.eq_nil_of_length_eq_zero (Nat.le_zero.mp hs)
    subst this; rfl
  | succ n ih =>
    intro s hs
    cases s with
    | nil => rfl
    | cons c rest =>
      by_cases hsw : startsWith listSep (c :: rest) = true
      · obtain ⟨t, heq⟩ := startsWith_listSep_elim hsw
        rcases List.cons_eq_cons.mp heq with ⟨rfl, heq2⟩
        subst heq2
        have ht : t.length ≤ n := by
          simp only [List.length_cons] at hs; omega
        have hrec := ih t ht
        rw [show splitSub listSep (':' :: '@' :: '>' :: t) =
            [] :: splitSub listSep t from splitSubGo_sep_head t]
        have hne := splitSub_ne_nil listSep t
        rcases hx : splitSub listSep t with _ | ⟨seg, segs⟩
        · exact absurd hx hne
        · rw [show joinSep listSep ([] :: seg :: segs) =
              [] ++ listSep ++ joinSep listSep (seg :: segs) from rfl]
          rw [hx] at hrec
          rw [hrec]
          rfl
      · have hrest : rest.length ≤ n := by
          simp only [List.length_cons] at hs; omega
        have hrec := ih rest hrest
        rw [show splitSub listSep (c :: rest) =
            (match splitSub listSep rest with
             | [] => [[c]]
             | seg :: segs => (c :: seg) :: segs) from
          splitSubGo_no_match (Bool.eq_false_iff.mpr hsw)]
        have hne := splitSub_ne_nil listSep rest
        rcases hx : splitSub listSep rest with _ | ⟨seg, segs⟩
        · exact absurd hx hne
        · simp only []
          rw [joinSep_cons_cons]
          rw [hx] at hrec
          rw [hrec]

theorem join_split (s : Str) : joinSep listSep (splitSub listSep s) = s :=
  join_split_aux s.length s (Nat.le_refl _)

/-- Split after join is the identity on non-empty lists of separator-free
segments. -/
theorem split_join {parts : List Str} (hne : parts ≠ [])
    (hfree : ∀ x ∈ parts, containsSub listSep x = false) :
    splitSub listSep (joinSep listSep parts) = parts := by
  induction parts with
  | nil => exact absurd rfl hne
  | cons p rest ih =>
    cases rest with
    | nil =>
      exact splitSub_free (hfree p (List.mem_cons_self p []))
    | cons q rest' =>
      rw [show joinSep listSep (p :: q :: rest') =
          p ++ listSep ++ joinSep listSep (q :: rest') from rfl]
      rw [splitSub_sep_append _ _ (hfree p (List.mem_cons_self p _))]
      rw [ih (by simp) (fun x hx => hfree x (List.mem_cons_of_mem p hx))]

/-! ### Lemmas about trimming -/

theorem trimLeftChars_cons_mem {cut : List Char} {c : Char} (s : Str)
    (h : hasChar c cut = true) : trimLeftChars cut (c :: s) = trimLeftChars cut s := by
  simp [trimLeftChars, h]

theorem trimLeftChars_cons_not {cut : List Char} {c : Char} (s : Str)
    (h : hasChar c cut = false) : trimLeftChars cut (c :: s) = c :: s := by
  simp [trimLeftChars, h]

theorem trimLeftChars_all_mem {cut : List Char} {pre : Str}
    (h : ∀ c ∈ pre, hasChar c cut = true) (s : Str) :
    trimLeftChars cut (pre ++ s) = trimLeftChars cut s := by
  induction pre with
  | nil => rfl
  | cons c pre' ih =>
    rw [List.cons_append, trimLeftChars_cons_mem _ (h c (List.mem_cons_self c _))]
    exact ih (fun x hx => h x (List.mem_cons_of_mem c hx))

theorem trimLeftChars_nil_of_all_mem {cut : List Char} {s : Str}
    (h : ∀ c ∈ s, hasChar c cut = true) : trimLeftChars cut s = [] := by
  have := trimLeftChars_all_mem h []
  simpa using this

/-- Either the left trim eats into the appended suffix (the whole base was
cutset characters) or it stops inside the base. -/
theorem trimLeftChars_append_cases (cut : List Char) (x suf : Str) :
    trimLeftChars cut (x ++ suf) = trimLeftChars cut x ++ suf ∨
    (trimLeftChars cut x = [] ∧ trimLeftChars cut (x ++ suf) = trimLeftChars cut suf) := by
  induction x with
  | nil => right; exact ⟨rfl, rfl⟩
  | cons c x' ih =>
    by_cases hc : hasChar c cut = true
    · rw [List.cons_append, trimLeftChars_cons_mem _ hc, trimLeftChars_cons_mem _ hc]
      exact ih
    · left
      rw [List.cons_append,
        trimLeftChars_cons_not _ (Bool.eq_false_iff.mpr hc),
        trimLeftChars_cons_not _ (Bool.eq_false_iff.mpr hc), List.cons_append]

theorem trimChars_prefix_mem {cut : List Char} {pre : Str}
    (h : ∀ c ∈ pre, hasChar c cut = true) (s : Str) :
    trimChars cut (pre ++ s) = trimChars cut s := by
  unfold trimChars
  rw [trimLeftChars_all_mem h s]

theorem trimChars_suffix_mem {cut : List Char} {suf : Str}
    (h : ∀ c ∈ suf, hasChar c cut = true) (s : Str) :
    trimChars cut (s ++ suf) = trimChars cut s := by
  unfold trimChars
  rcases trimLeftChars_append_cases cut s suf with hc | ⟨h1, h2⟩
  · rw [hc, List.reverse_append, trimLeftChars_all_mem (by simpa using h)]
  · rw [h1, h2, trimLeftChars_nil_of_all_mem h]

/-- Trimming a cutset prefix and suffix around a trim-fixed core recovers the
core. -/
theorem trimChars_sandwich {cut : List Char} {pre suf s : Str}
    (hpre : ∀ c ∈ pre, hasChar c cut = true) (hsuf : ∀ c ∈ suf, hasChar c cut = true)
    (hs : trimChars cut s = s) :
    trimChars cut (pre ++ s ++ suf) = s := by
  rw [List.append_assoc, trimChars_prefix_mem hpre, trimChars_suffix_mem hsuf, hs]

/-! ### Lemmas about the todo line codec -/

/-- Rendering a clean todo and re-parsing it (with any cutset tail appended)
recovers the todo's fields at the supplied path. -/
theorem ParseTodo_render (p : Str) (t : Todo) (suf : Str)
    (htrim : trimChars [' ', '\n'] t.name = t.name)
    (hfree : hasChar ']' t.name = false)
    (hsuf : ∀ c ∈ suf, hasChar c [' ', '\n'] = true)
    (hsufFree : hasChar ']' suf = false) :
    ParseTodo p (t.render ++ suf) =
      .ok { listID := p, name := t.name, completed := t.completed } := by
  obtain ⟨tid, name, completed⟩ := t
  simp only [Todo.render] at htrim hfree ⊢
  cases completed with
  | false =>
    have hline : ((if false = true then lit "- [x]" else lit "- [ ]") ++ [' '] ++ name ++ suf : Str) =
        ['-', ' ', '[', ' '] ++ ']' :: (' ' :: (name ++ suf)) := by
      simp [lit]
    rw [hline]
    have hsplit : splitSub [']'] (['-', ' ', '[', ' '] ++ ']' :: (' ' :: (name ++ suf))) =
        ['-', ' ', '[', ' '] :: [' ' :: (name ++ suf)] := by
      rw [splitSub_single_append _ _ (by decide)]
      rw [splitSub_single_free
        (by simp [hasChar_cons, hasChar_append, hfree, hsufFree])]
    unfold ParseTodo
    rw [show (lit "]" : Str) = [']'] from rfl, hsplit]
    simp only []
    rw [if_pos (by decide)]
    have : trimChars [' ', '\n'] (' ' :: (name ++ suf)) = name := by
      have := @trimChars_sandwich [' ', '\n'] [' '] suf name
        (by intro c hc; simp at hc; subst hc; decide) hsuf htrim
      simpa using this
    rw [this]
  | true =>
    have hline : ((if true = true then lit "- [x]" else lit "- [ ]") ++ [' '] ++ name ++ suf : Str) =
        ['-', ' ', '[', 'x'] ++ ']' :: (' ' :: (name ++ suf)) := by
      simp [lit]
    rw [hline]
    have hsplit : splitSub [']'] (['-', ' ', '[', 'x'] ++ ']' :: (' ' :: (name ++ suf))) =
        ['-', ' ', '[', 'x'] :: [' ' :: (name ++ suf)] := by
      rw [splitSub_single_append _ _ (by decide)]
      rw [splitSub_single_free
        (by simp [hasChar_cons, hasChar_append, hfree, hsufFree])]
    unfold ParseTodo
    rw [show (lit "]" : Str) = [']'] from rfl, hsplit]
    simp only []
    rw [if_neg (by decide), if_pos (by decide)]
    have : trimChars [' ', '\n'] (' ' :: (name ++ suf)) = name := by
      have := @trimChars_sandwich [' ', '\n'] [' '] suf name
        (by intro c hc; simp at hc; subst hc; decide) hsuf htrim
      simpa using this
    rw [this]

/-! ### Lemmas about the modeled store -/

theorem lookupFile_append_self {fs : FS} {k : Str} (v : Str)
    (h : lookupFile fs k = none) : lookupFile (fs ++ [(k, v)]) k = some v := by
  induction fs with
  | nil => simp [lookupFile, List.find?]
  | cons e fs' ih =>
    by_cases he : (e.1 == k) = true
    · exfalso
      simp [lookupFile, List.find?_cons, he] at h
    · have h' : lookupFile fs' k = none := by
        simpa [lookupFile, List.find?_cons, he] using h
      simpa [lookupFile, List.cons_append, List.find?_cons, he] using ih h'

/-! ### Lemmas about line reading -/

theorem readLinesGo_no_nl : ∀ (frag acc : Str), hasChar '\n' frag = false →
    readLinesGo acc frag = [] := by
  intro frag
  induction frag with
  | nil => intro acc _; rfl
  | cons c rest ih =>
    intro acc h
    rcases hasChar_cons_false h with ⟨hc, hr⟩
    simp only [readLinesGo, if_neg hc]
    exact ih _ hr

theorem readLinesGo_append_no_nl : ∀ (doc frag acc : Str), hasChar '\n' frag = false →
    readLinesGo acc (doc ++ frag) = readLinesGo acc doc := by
  intro doc
  induction doc with
  | nil => intro frag acc h; exact readLinesGo_no_nl frag acc h
  | cons c rest ih =>
    intro frag acc h
    by_cases hc : c = '\n'
    · subst hc
      show ((acc ++ ['\n']) :: readLinesGo [] (rest ++ frag)) =
        ((acc ++ ['\n']) :: readLinesGo [] rest)
      rw [ih frag [] h]
    · simp only [List.cons_append, readLinesGo, if_neg hc]
      exact ih frag _ h

/-! ### Claims -/

/-- Claim C1, counterexample: against an empty store directory, `createToday`
does succeed (the `NotFoundError` is replaced by an empty list), but the file
it creates is empty — it does not contain the date-stamped title line
`TODO <today>` (nor anything else), because `List.Dump` never writes the
list's `Name` field. -/
theorem claim1_counterexample :
    CreateToday [] { y := 2024, m := 5, d := 6 } =
      .ok ([(lit "2024-05-06.md", [])], lit "2024-05-06.md") ∧
    ([] : Str) ≠ lit "TODO 2024-05-06" ∧ ([] : Str) ≠ lit "# TODO 2024-05-06\n" := by
  refine ⟨by decide, by decide, by decide⟩

/-- Claim C1, amended: for every empty store directory, `createToday`
succeeds (the `NotFoundError` from fetching the latest list is replaced by an
empty list, not propagated) and the file it creates is empty: although the
code sets the list's display name to `TODO <today>`, the serializer never
writes the `Name` field, so nothing is emitted for an empty map. -/
theorem claim1_amended (today : Date) :
    CreateToday [] today = .ok ([(todayFname today, [])], todayFname today) := rfl

/-- Claim C8: if a file for today's date already exists, `createToday` fails
with the already-exists error before performing any write (the model returns
no new directory state on the error path, mirroring that the Go code returns
before `os.Create`); consequently running it twice for the same directory and
date fails the second time, the first run's file being the one found. -/
theorem claim8_no_overwrite :
    (∀ (fs : FS) (today : Date) (c : Str),
        lookupFile fs (todayFname today) = some c →
        CreateToday fs today = .error (.alreadyExists (todayFname today))) ∧
    (∀ (fs fs2 : FS) (today : Date) (p : Str),
        CreateToday fs today = .ok (fs2, p) →
        p = todayFname today ∧
        CreateToday fs2 today = .error (.alreadyExists (todayFname today))) := by
  constructor
  · intro fs today c h
    simp only [CreateToday, h]
  · intro fs fs2 today p h
    simp only [CreateToday] at h
    cases hl : lookupFile fs (todayFname today) with
    | some c => rw [hl] at h; simp at h
    | none =>
      rw [hl] at h
      cases hg : (match GetLatestList fs with
        | .error e => if e = .listNotFound then .ok { name := [], sublists := [] }
                      else .error e
        | .ok l => .ok l : Except StoreErr DrList) with
      | error e => rw [hg] at h; simp at h
      | ok latest =>
        rw [hg] at h
        simp only [Except.ok.injEq, Prod.mk.injEq] at h
        obtain ⟨hfs2, hp⟩ := h
        refine ⟨hp.symm, ?_⟩
        have hlook := lookupFile_append_self
          (DrList.Dump { latest with name := lit "TODO " ++ FormatDate today } true) hl
        rw [hfs2] at hlook
        simp only [CreateToday, hlook]

/-- Witness for C8 at a concrete store and date. -/
theorem claim8_witness :
    CreateToday [(todayFname { y := 2024, m := 5, d := 6 }, [])]
        { y := 2024, m := 5, d := 6 } =
      .error (.alreadyExists (todayFname { y := 2024, m := 5, d := 6 })) :=
  claim8_no_overwrite.1 _ { y := 2024, m := 5, d := 6 } [] (by decide)

/-- Claim C10: a final line not terminated by a newline is silently discarded
by the parser — parsing a document with a newline-free fragment appended
behaves exactly as if the fragment were absent (no todo, no heading, no
error). -/
theorem claim10_unterminated_line (doc frag : Str) (h : hasChar '\n' frag = false) :
    parseList (doc ++ frag) = parseList doc := by
  unfold parseList readLines
  rw [readLinesGo_append_no_nl doc frag [] h]

/-- Witness for C10: an unterminated final todo line is dropped. -/
theorem claim10_witness :
    parseList (lit "# A\n- [] x\n" ++ lit "- [] y") = parseList (lit "# A\n- [] x\n") :=
  claim10_unterminated_line (lit "# A\n- [] x\n") (lit "- [] y") (by decide)

/-- Claim C4, counterexample: a valid todo whose (non-empty, trimmed) name
contains `']'` does not round-trip: `ParseTodo` keeps only the segment up to
the next `']'`, so the name `a]b` comes back as `a`. -/
theorem claim4_counterexample :
    ParseTodo [] (Todo.render { listID := [], name := lit "a]b", completed := false }) =
      .ok { listID := [], name := lit "a", completed := false } ∧
    (lit "a" : Str) ≠ lit "a]b" := by
  refine ⟨by decide, by decide⟩

/-- Claim C4, amended: for every valid todo whose trimmed name is non-empty
and free of `']'`, formatting, parsing with any path, and formatting again
reproduces the todo exactly (checked state and trimmed name round-trip; the
path is contextual). -/
theorem claim4_amended (p : Str) (t : Todo)
    (htrim : trimChars [' ', '\n'] t.name = t.name)
    (hfree : hasChar ']' t.name = false)
    (hne : t.name ≠ []) :
    ParseTodo p (t.render) = .ok { listID := p, name := t.name, completed := t.completed } ∧
    Todo.render { listID := p, name := t.name, completed := t.completed } = t.render := by
  refine ⟨?_, rfl⟩
  have := ParseTodo_render p t [] htrim hfree (by intro c hc; simp at hc) (by decide)
  simpa using this

/-- Witness for C4 at a concrete todo. -/
theorem claim4_witness :
    ParseTodo (lit "P") (Todo.render { listID := [], name := lit "do it", completed := true }) =
      .ok { listID := lit "P", name := lit "do it", completed := true } ∧
    Todo.render { listID := lit "P", name := lit "do it", completed := true } =
      Todo.render { listID := [], name := lit "do it", completed := true } :=
  claim4_amended (lit "P") { listID := [], name := lit "do it", completed := true }
    (by decide) (by decide) (by decide)

/-- Claim C5, counterexample: a line whose checkbox is well-formed but with
nothing after `']'` parses successfully into a todo with an **empty** name —
the parser does not enforce the "name never empty after trimming" invariant. -/
theorem claim5_counterexample :
    ParseTodo [] (lit "- []") = .ok { listID := [], name := [], completed := false } := by
  decide

/-- Claim C5, amended: `ParseTodo` fails with the missing-checkbox error for
every input without `']'`, and fails with the invalid-checkbox error naming
the space-stripped pre-`]` literal whenever that literal is neither `-[]` nor
`-[x]`; but a successful parse may return an empty trimmed name (e.g. the line
`- []`), which is not rejected. -/
theorem claim5_amended :
    (∀ (p s : Str), hasChar ']' s = false →
        ParseTodo p s = .error .missingCheckbox) ∧
    (∀ (p s p0 p1 : Str) (rest : List Str),
        splitSub (lit "]") s = p0 :: p1 :: rest →
        removeSpaces (p0 ++ lit "]") ≠ lit "-[]" →
        removeSpaces (p0 ++ lit "]") ≠ lit "-[x]" →
        ParseTodo p s = .error (.invalidCheckbox (removeSpaces (p0 ++ lit "]")))) ∧
    (∀ p : Str, ParseTodo p (lit "- []") =
        .ok { listID := p, name := [], completed := false }) := by
  refine ⟨?_, ?_, ?_⟩
  · intro p s h
    unfold ParseTodo
    rw [show (lit "]" : Str) = [']'] from rfl, splitSub_single_free h]
  · intro p s p0 p1 rest hsplit h1 h2
    unfold ParseTodo
    rw [hsplit]
    simp only []
    rw [if_neg h1, if_neg h2]
  · intro p
    rfl

/-- Witness for C5 at concrete lines. -/
theorem claim5_witness :
    ParseTodo [] (lit "- Test TODO") = .error .missingCheckbox ∧
    ParseTodo [] (lit "- [o] x") = .error (.invalidCheckbox (removeSpaces (lit "- [o" ++ lit "]"))) ∧
    ParseTodo (lit "q") (lit "- []") = .ok { listID := lit "q", name := [], completed := false } :=
  ⟨claim5_amended.1 [] (lit "- Test TODO") (by decide),
   claim5_amended.2.1 [] (lit "- [o] x") (lit "- [o") (lit " x") [] (by decide)
     (by decide) (by decide),
   claim5_amended.2.2 (lit "q")⟩

/-- Claim C9, counterexample: nothing prevents a heading from containing the
"reserved" separator `:@>`.  Parsing `# a:@>b` puts the single name `a:@>b`
on the stack, but splitting the resulting todo's path yields `["a", "b"]`,
not the one-element stack name sequence. -/
theorem claim9_counterexample :
    parseList (lit "# a:@>b\n- [] t\n") =
      .ok [(lit "a:@>b", [{ listID := lit "a:@>b", name := lit "t", completed := false }])] ∧
    splitSub listSep (lit "a:@>b") = [lit "a", lit "b"] ∧
    ([lit "a", lit "b"] : List Str) ≠ [lit "a:@>b"] := by
  refine ⟨by decide, by decide, by decide⟩

/-- Claim C9, amended: splitting a todo's list path on the reserved separator
recovers exactly the open heading names that were joined to form it,
**provided** the stack is non-empty and no heading name contains `:@>` — the
code does not actually reserve the sequence, so a heading containing it
breaks the correspondence. -/
theorem claim9_amended (stack : List ListName) (hne : stack ≠ [])
    (hfree : ∀ ln ∈ stack, containsSub listSep ln.name = false) :
    splitSub listSep (joinSep listSep (stack.map ListName.name)) =
      stack.map ListName.name := by
  refine split_join (by simpa using hne) ?_
  intro x hx
  obtain ⟨ln, hln, rfl⟩ := List.mem_map.mp hx
  exact hfree ln hln

/-- Witness for C9 at a concrete two-level stack. -/
theorem claim9_witness :
    splitSub listSep (joinSep listSep
      (([{ name := lit "A", depth := 1 }, { name := lit "B", depth := 2 }] :
        List ListName).map ListName.name)) =
      ([{ name := lit "A", depth := 1 }, { name := lit "B", depth := 2 }] :
        List ListName).map ListName.name :=
  claim9_amended [{ name := lit "A", depth := 1 }, { name := lit "B", depth := 2 }]
    (by decide) (by decide)

/-- Claim C2, counterexample: a todo parsed while no heading is open gets the
empty path, which serializes under a depth-1 heading (`"# "`): its serialized
heading depth is 1, not the number of stack entries (0). -/
theorem claim2_counterexample :
    parseList (lit "- [] x\n") =
      .ok [([], [{ listID := [], name := lit "x", completed := false }])] ∧
    DrList.Dump
        { name := [], sublists := [([], [{ listID := [], name := lit "x", completed := false }])] }
        false =
      lit "# \n- [ ] x\n" := by
  refine ⟨by decide, by decide⟩

/-- Claim C2, amended: for every heading line (which always has literal depth
`d ≥ 1`) the parser updates the stack exactly by the claimed rules (push when
empty or deeper, replace on equal depth, pop-while-`≥ d` then push when
shallower); and a todo's serialized heading depth equals the number of stack
entries at its line **when at least one heading is open and no open name
contains the separator** (a todo with an empty stack serializes at depth 1). -/
theorem claim2_amended :
    (∀ (stack : List ListName) (name : Str) (d : Nat), 1 ≤ d →
        stepHeadingND stack name d = stepSpec stack name d) ∧
    (∀ stack : List ListName, stack ≠ [] →
        (∀ ln ∈ stack, containsSub listSep ln.name = false) →
        (splitSub listSep (joinSep listSep (stack.map ListName.name))).length =
          stack.length) := by
  constructor
  · intro stack name d hd
    unfold stepHeadingND stepSpec
    cases hlast : stack.getLast? with
    | none =>
      have hstack : stack = [] := by simpa using hlast
      subst hstack
      rw [show (Option.map ListName.depth (none : Option ListName)).getD 0 = 0 from rfl]
      rw [if_pos (show d > 0 from hd)]
    | some top =>
      rfl
  · intro stack hne hfree
    rw [split_join (by simpa using hne)
      (by intro x hx; obtain ⟨ln, hln, rfl⟩ := List.mem_map.mp hx; exact hfree ln hln)]
    simp

/-- Witness for C2 at a concrete stack and heading. -/
theorem claim2_witness :
    stepHeadingND [] (lit "A") 1 = stepSpec [] (lit "A") 1 ∧
    (splitSub listSep (joinSep listSep
        (([{ name := lit "A", depth := 1 }] : List ListName).map ListName.name))).length =
      ([{ name := lit "A", depth := 1 }] : List ListName).length :=
  ⟨claim2_amended.1 [] (lit "A") 1 (by decide),
   claim2_amended.2 [{ name := lit "A", depth := 1 }] (by decide) (by decide)⟩

/-! ### Lemmas for the serializer refinement -/

theorem unlines_nil : unlines [] = [] := rfl

theorem unlines_cons (l : Str) (ls : List Str) :
    unlines (l :: ls) = l ++ '\n' :: unlines ls := by
  simp [unlines]

theorem unlines_append (a b : List Str) : unlines (a ++ b) = unlines a ++ unlines b := by
  simp [unlines]

theorem dumpGroup_eq_unlines (omitCompleted : Bool) (e : Str × List Todo) :
    dumpGroup omitCompleted e = unlines (specGroupLines omitCompleted e) := by
  unfold dumpGroup specGroupLines
  rw [unlines_cons]
  have hfilter : e.2.filter (fun t => !omitCompleted || !t.completed) =
      e.2.filter (fun t => !(omitCompleted && t.completed)) := by
    apply List.filter_congr
    intro t _
    cases omitCompleted <;> cases t.completed <;> rfl
  rw [hfilter]
  simp [unlines, comps, leafOf, List.map_map, Function.comp_def, List.append_assoc]

theorem dump_eq_spec_aux (omitCompleted : Bool) : ∀ gs : Sublists,
    joinSep ['\n'] (gs.map (dumpGroup omitCompleted)) =
      unlines (List.flatten (List.intersperse [([] : Str)]
        (gs.map (specGroupLines omitCompleted)))) := by
  intro gs
  induction gs with
  | nil => rfl
  | cons g rest ih =>
    cases rest with
    | nil =>
      simp only [List.map_cons, List.map_nil, List.intersperse_singleton, List.flatten,
        List.flatten_nil, List.append_nil]
      rw [show joinSep ['\n'] [dumpGroup omitCompleted g] = dumpGroup omitCompleted g from rfl]
      exact dumpGroup_eq_unlines omitCompleted g
    | cons g2 rest2 =>
      rw [show joinSep ['\n'] ((g :: g2 :: rest2).map (dumpGroup omitCompleted)) =
          dumpGroup omitCompleted g ++ ['\n'] ++
            joinSep ['\n'] ((g2 :: rest2).map (dumpGroup omitCompleted)) from rfl]
      rw [ih]
      rw [show (g :: g2 :: rest2).map (specGroupLines omitCompleted) =
          specGroupLines omitCompleted g ::
            (g2 :: rest2).map (specGroupLines omitCompleted) from rfl]
      rw [show (g2 :: rest2).map (specGroupLines omitCompleted) =
          specGroupLines omitCompleted g2 :: rest2.map (specGroupLines omitCompleted) from rfl]
      rw [List.intersperse_cons_cons]
      have hflat : (specGroupLines omitCompleted g :: [([] : Str)] ::
          List.intersperse [([] : Str)]
            (specGroupLines omitCompleted g2 :: rest2.map (specGroupLines omitCompleted))).flatten =
          specGroupLines omitCompleted g ++ [([] : Str)] ++
            (List.intersperse [([] : Str)]
              (specGroupLines omitCompleted g2 :: rest2.map (specGroupLines omitCompleted))).flatten := by
        simp
      rw [hflat, unlines_append, unlines_append]
      rw [dumpGroup_eq_unlines omitCompleted g]
      rw [show unlines [([] : Str)] = ['\n'] from rfl]

/-- Claim C6: the serializer behaves exactly as specified — groups in map
(first-insertion) order, each printing a heading whose depth is the path's
component count and whose text is the leaf component, then the group's todos
in order with completed ones omitted when `omitCompleted` is set (headings
always printed), with exactly one blank line between successive groups, none
before the first and none after the last. -/
theorem claim6_dump_spec (l : DrList) (omitCompleted : Bool) :
    DrList.Dump l omitCompleted = specSerialize l omitCompleted :=
  dump_eq_spec_aux omitCompleted l.sublists

/-! ### Lemmas for the dated store -/

theorem digitChar_ne_dot (n : Nat) : (digitChar n == '.') = false := by
  have h : n % 10 < 10 := Nat.mod_lt _ (by omega)
  unfold digitChar
  set k := n % 10 with hk
  interval_cases k <;> decide

theorem formatDate_no_dot (dt : Date) : hasChar '.' (FormatDate dt) = false := by
  simp [FormatDate, hasChar, List.any_cons, digitChar_ne_dot]

theorem splitSub_md (dt : Date) :
    splitSub (lit ".") (FormatDate dt ++ lit ".md") = [FormatDate dt, lit "md"] := by
  rw [show (lit ".md" : Str) = '.' :: lit "md" from rfl,
    show (lit "." : Str) = ['.'] from rfl,
    splitSub_single_append _ _ (formatDate_no_dot dt),
    splitSub_single_free (by decide)]

theorem parseEntryDates_ok : ∀ entries : List Str,
    (∀ e ∈ entries, ∃ dt : Date,
        e = FormatDate dt ++ lit ".md" ∧ ParseDate (FormatDate dt) = some dt) →
    ∃ ds : List Date, parseEntryDates entries = .ok ds ∧
      entries = ds.map (fun dt => FormatDate dt ++ lit ".md") := by
  intro entries
  induction entries with
  | nil => intro _; exact ⟨[], rfl, rfl⟩
  | cons e rest ih =>
    intro h
    obtain ⟨dt, rfl, hdt⟩ := h e (List.mem_cons_self e rest)
    obtain ⟨ds, hds, hshape⟩ := ih (fun x hx => h x (List.mem_cons_of_mem _ hx))
    refine ⟨dt :: ds, ?_, ?_⟩
    · unfold parseEntryDates
      rw [splitSub_md dt]
      simp only []
      rw [hdt, hds]
    · rw [List.map_cons, ← hshape]

theorem insertDesc_perm (dt : Date) : ∀ l : List Date, (insertDesc dt l).Perm (dt :: l) := by
  intro l
  induction l with
  | nil => exact List.Perm.refl _
  | cons x xs ih =>
    unfold insertDesc
    by_cases hx : x.key < dt.key
    · rw [if_pos hx]
    · rw [if_neg hx]
      exact (ih.cons x).trans (List.Perm.swap dt x xs)

theorem sortDatesDesc_perm : ∀ l : List Date, (sortDatesDesc l).Perm l := by
  intro l
  induction l with
  | nil => exact List.Perm.refl _
  | cons x xs ih =>
    exact (insertDesc_perm x (sortDatesDesc xs)).trans (ih.cons x)

theorem insertDesc_sorted (dt : Date) : ∀ l : List Date,
    List.Pairwise dateGE l → List.Pairwise dateGE (insertDesc dt l) := by
  intro l
  induction l with
  | nil => intro _; simp [insertDesc, List.pairwise_singleton]
  | cons x xs ih =>
    intro h
    rw [List.pairwise_cons] at h
    obtain ⟨hx, hxs⟩ := h
    unfold insertDesc
    by_cases hcmp : x.key < dt.key
    · rw [if_pos hcmp, List.pairwise_cons]
      constructor
      · intro y hy
        rcases List.mem_cons.mp hy with rfl | hy2
        · exact Nat.le_of_lt hcmp
        · exact (hx y hy2).trans (Nat.le_of_lt hcmp)
      · rw [List.pairwise_cons]; exact ⟨hx, hxs⟩
    · rw [if_neg hcmp, List.pairwise_cons]
      constructor
      · intro y hy
        have := (insertDesc_perm dt xs).mem_iff.mp hy
        rcases List.mem_cons.mp this with rfl | hy2
        · exact Nat.le_of_not_lt hcmp
        · exact hx y hy2
      · exact ih hxs

theorem sortDatesDesc_sorted : ∀ l : List Date, List.Pairwise dateGE (sortDatesDesc l) := by
  intro l
  induction l with
  | nil => exact List.Pairwise.nil
  | cons x xs ih => exact insertDesc_sorted x (sortDatesDesc xs) ih

/-- Claim C7, counterexample: for a directory entry with a valid date stem but
an extension other than `md`, the returned path is **not** the entry's full
path — the extension is discarded and replaced by `.md`. -/
theorem claim7_counterexample :
    GetSortedListPaths (lit "h") [lit "2024-01-01.txt"] = .ok [lit "h/2024-01-01.md"] ∧
    [lit "h/2024-01-01.md"] ≠ [joinPath (lit "h") (lit "2024-01-01.txt")] := by
  refine ⟨by decide, by decide⟩

/-- Claim C7, amended: for every directory whose entries are all named
`<date>.md` with valid `YYYY-MM-DD` stems, `GetSortedListPaths` returns the
full paths of those entries sorted by descending date (and the empty directory
yields an empty list, not an error); entries with another extension come back
with their extension rewritten to `.md`, so the claim holds only for `.md`
entries. -/
theorem claim7_amended (dir : Str) (entries : List Str)
    (h : ∀ e ∈ entries, ∃ dt : Date,
        e = FormatDate dt ++ lit ".md" ∧ ParseDate (FormatDate dt) = some dt) :
    ∃ ds : List Date,
      GetSortedListPaths dir entries =
        .ok (ds.map (fun dt => joinPath dir (FormatDate dt ++ lit ".md"))) ∧
      (ds.map (fun dt => joinPath dir (FormatDate dt ++ lit ".md"))).Perm
        (entries.map (joinPath dir)) ∧
      List.Pairwise dateGE ds := by
  cases hent : entries.isEmpty with
  | true =>
    have : entries = [] := List.isEmpty_iff.mp hent
    subst this
    exact ⟨[], rfl, List.Perm.refl _, List.Pairwise.nil⟩
  | false =>
    obtain ⟨ds0, hparse, hshape⟩ := parseEntryDates_ok entries h
    refine ⟨sortDatesDesc ds0, ?_, ?_, sortDatesDesc_sorted ds0⟩
    · unfold GetSortedListPaths
      rw [hent]
      simp only [Bool.false_eq_true, if_neg, hparse]
      rfl
    · have hperm := (sortDatesDesc_perm ds0).map
        (fun dt => joinPath dir (FormatDate dt ++ lit ".md"))
      refine hperm.trans ?_
      rw [hshape, List.map_map]
      exact List.Perm.refl _

/-- Witness for C7 at a concrete two-entry directory. -/
theorem claim7_witness :
    ∃ ds : List Date,
      GetSortedListPaths (lit "h") [lit "2024-01-02.md", lit "2024-01-01.md"] =
        .ok (ds.map (fun dt => joinPath (lit "h") (FormatDate dt ++ lit ".md"))) ∧
      (ds.map (fun dt => joinPath (lit "h") (FormatDate dt ++ lit ".md"))).Perm
        ([lit "2024-01-02.md", lit "2024-01-01.md"].map (joinPath (lit "h"))) ∧
      List.Pairwise dateGE ds :=
  claim7_amended (lit "h") [lit "2024-01-02.md", lit "2024-01-01.md"]
    (by
      intro e he
      rcases List.mem_cons.mp he with rfl | he2
      · exact ⟨{ y := 2024, m := 1, d := 2 }, by decide, by decide⟩
      · rcases List.mem_cons.mp he2 with rfl | he3
        · exact ⟨{ y := 2024, m := 1, d := 1 }, by decide, by decide⟩
        · cases he3)

/-! ### Trim idempotence and character-subset lemmas -/

theorem trimLeftChars_is_suffix (cut : List Char) : ∀ s : Str,
    ∃ pre, s = pre ++ trimLeftChars cut s := by
  intro s
  induction s with
  | nil => exact ⟨[], rfl⟩
  | cons c rest ih =>
    by_cases hc : hasChar c cut = true
    · obtain ⟨pre, hpre⟩ := ih
      refine ⟨c :: pre, ?_⟩
      rw [trimLeftChars_cons_mem _ hc, List.cons_append, ← hpre]
    · refine ⟨[], ?_⟩
      rw [trimLeftChars_cons_not _ (Bool.eq_false_iff.mpr hc), List.nil_append]

theorem trimLeftChars_head_shape (cut : List Char) : ∀ s : Str,
    trimLeftChars cut s = [] ∨
      ∃ c t, trimLeftChars cut s = c :: t ∧ hasChar c cut = false := by
  intro s
  induction s with
  | nil => exact Or.inl rfl
  | cons c rest ih =>
    by_cases hc : hasChar c cut = true
    · rw [trimLeftChars_cons_mem _ hc]; exact ih
    · exact Or.inr ⟨c, rest,
        trimLeftChars_cons_not _ (Bool.eq_false_iff.mpr hc), Bool.eq_false_iff.mpr hc⟩

theorem trimLeftChars_append_single {cut : List Char} {d : Char}
    (hd : hasChar d cut = false) : ∀ x : Str,
    trimLeftChars cut (x ++ [d]) = trimLeftChars cut x ++ [d] := by
  intro x
  induction x with
  | nil => simpa using trimLeftChars_cons_not [] hd
  | cons c x' ih =>
    by_cases hc : hasChar c cut = true
    · rw [List.cons_append, trimLeftChars_cons_mem _ hc, trimLeftChars_cons_mem _ hc, ih]
    · rw [List.cons_append, trimLeftChars_cons_not _ (Bool.eq_false_iff.mpr hc),
        trimLeftChars_cons_not _ (Bool.eq_false_iff.mpr hc), List.cons_append]

theorem trimChars_idem (cut : List Char) (s : Str) :
    trimChars cut (trimChars cut s) = trimChars cut s := by
  rcases trimLeftChars_head_shape cut (trimLeftChars cut s).reverse with hv | ⟨d, w, hv, hd⟩
  · rw [show trimChars cut s = (trimLeftChars cut (trimLeftChars cut s).reverse).reverse
      from rfl, hv]
    rfl
  · have htrim : trimChars cut s = w.reverse ++ [d] := by
      rw [show trimChars cut s = (trimLeftChars cut (trimLeftChars cut s).reverse).reverse
        from rfl, hv, List.reverse_cons]
    have hwrev : trimLeftChars cut w.reverse = w.reverse := by
      rcases List.eq_nil_or_concat w with rfl | ⟨w1, cw, hw⟩
      · rfl
      · rw [List.concat_eq_append] at hw
        subst hw
        rcases trimLeftChars_head_shape cut s with hu | ⟨c0, t0, hu, hc0⟩
        · exfalso
          rw [hu] at hv
          simp [trimLeftChars] at hv
        · obtain ⟨pre, hpre⟩ := trimLeftChars_is_suffix cut (trimLeftChars cut s).reverse
          rw [hv] at hpre
          have hlast : ((trimLeftChars cut s).reverse).getLast? = some c0 := by
            rw [hu, List.reverse_cons, List.getLast?_concat]
          rw [hpre] at hlast
          have hlast2 : (pre ++ d :: (w1 ++ [cw])).getLast? = some cw := by
            rw [show pre ++ d :: (w1 ++ [cw]) = (pre ++ d :: w1) ++ [cw] by simp,
              List.getLast?_concat]
          rw [hlast2] at hlast
          have hcw : cw = c0 := by simpa using hlast
          subst hcw
          rw [List.reverse_append, List.reverse_singleton, List.singleton_append,
            trimLeftChars_cons_not _ hc0]
    rw [htrim, show trimChars cut (w.reverse ++ [d]) =
        (trimLeftChars cut (trimLeftChars cut (w.reverse ++ [d])).reverse).reverse from rfl]
    rw [trimLeftChars_append_single hd w.reverse, hwrev, List.reverse_append,
      List.reverse_singleton, List.singleton_append, List.reverse_reverse,
      trimLeftChars_cons_not _ hd, List.reverse_cons]

theorem mem_trimLeftChars {cut : List Char} {x : Char} : ∀ {s : Str},
    x ∈ trimLeftChars cut s → x ∈ s := by
  intro s
  induction s with
  | nil => intro h; simpa [trimLeftChars] using h
  | cons c rest ih =>
    intro h
    by_cases hc : hasChar c cut = true
    · rw [trimLeftChars_cons_mem _ hc] at h
      exact List.mem_cons_of_mem c (ih h)
    · rwa [trimLeftChars_cons_not _ (Bool.eq_false_iff.mpr hc)] at h

theorem mem_trimChars {cut : List Char} {x : Char} {s : Str}
    (h : x ∈ trimChars cut s) : x ∈ s := by
  unfold trimChars at h
  rw [List.mem_reverse] at h
  have h2 := mem_trimLeftChars h
  rw [List.mem_reverse] at h2
  exact mem_trimLeftChars h2

theorem hasChar_false_iff {c : Char} {s : Str} : hasChar c s = false ↔ c ∉ s := by
  simp [hasChar, List.any_eq_false]
  constructor
  · intro h hc
    exact absurd rfl (h c hc)
  · intro h x hx hxc
    exact h (hxc ▸ hx)

theorem hasChar_trimChars_false {c : Char} {cut : List Char} {s : Str}
    (h : hasChar c s = false) : hasChar c (trimChars cut s) = false := by
  rw [hasChar_false_iff] at h ⊢
  intro hc
  exact h (mem_trimChars hc)

/-! ### Structure of single-character splits -/

theorem splitSub_single_cons_sep (c : Char) (rest : Str) :
    splitSub [c] (c :: rest) = [] :: splitSub [c] rest := by
  show splitSubGo [c] [] (c :: rest) = _
  rw [show splitSubGo [c] [] (c :: rest) =
      if (startsWith [c] (c :: rest) && !List.isEmpty [c]) = true then
        [] :: splitSubGo [c] (List.drop 1 [c]) rest
      else
        match splitSubGo [c] [] rest with
        | [] => [[c]]
        | seg :: segs => (c :: seg) :: segs from rfl]
  rw [if_pos (by simp [startsWith])]
  rfl

theorem splitSub_single_cons_not {c x : Char} (hx : x ≠ c) (rest : Str) :
    splitSub [c] (x :: rest) =
      match splitSub [c] rest with
      | [] => [[x]]
      | seg :: segs => (x :: seg) :: segs := by
  show splitSubGo [c] [] (x :: rest) = _
  rw [show splitSubGo [c] [] (x :: rest) =
      if (startsWith [c] (x :: rest) && !List.isEmpty [c]) = true then
        [] :: splitSubGo [c] (List.drop 1 [c]) rest
      else
        match splitSubGo [c] [] rest with
        | [] => [[x]]
        | seg :: segs => (x :: seg) :: segs from rfl]
  rw [if_neg (by simp [startsWith, Ne.symm hx])]
  rfl

theorem splitSub_single_parts_free (c : Char) : ∀ (s : Str),
    ∀ part ∈ splitSub [c] s, hasChar c part = false := by
  intro s
  induction s with
  | nil =>
    intro part hp
    rw [show splitSub [c] [] = [[]] from rfl] at hp
    simp at hp
    subst hp
    rfl
  | cons x rest ih =>
    intro part hp
    by_cases hx : x = c
    · subst hx
      rw [splitSub_single_cons_sep] at hp
      rcases List.mem_cons.mp hp with rfl | hp2
      · rfl
      · exact ih part hp2
    · rw [splitSub_single_cons_not hx] at hp
      rcases hS : splitSub [c] rest with _ | ⟨seg, segs⟩
      · exact absurd hS (splitSub_ne_nil [c] rest)
      · rw [hS] at hp
        simp only [] at hp
        rcases List.mem_cons.mp hp with rfl | hp2
        · rw [hasChar_cons]
          have hseg := ih seg (by rw [hS]; exact List.mem_cons_self _ _)
          simp [hx, hseg]
        · exact ih part (by rw [hS]; exact List.mem_cons_of_mem _ hp2)

theorem splitSub_single_parts_subset (c : Char) : ∀ (s : Str),
    ∀ part ∈ splitSub [c] s, ∀ ch ∈ part, ch ∈ s := by
  intro s
  induction s with
  | nil =>
    intro part hp
    rw [show splitSub [c] [] = [[]] from rfl] at hp
    simp at hp
    subst hp
    intro ch hch
    cases hch
  | cons x rest ih =>
    intro part hp
    by_cases hx : x = c
    · subst hx
      rw [splitSub_single_cons_sep] at hp
      rcases List.mem_cons.mp hp with rfl | hp2
      · intro ch hch; cases hch
      · intro ch hch
        exact List.mem_cons_of_mem _ (ih part hp2 ch hch)
    · rw [splitSub_single_cons_not hx] at hp
      rcases hS : splitSub [c] rest with _ | ⟨seg, segs⟩
      · exact absurd hS (splitSub_ne_nil [c] rest)
      · rw [hS] at hp
        simp only [] at hp
        rcases List.mem_cons.mp hp with rfl | hp2
        · intro ch hch
          rcases List.mem_cons.mp hch with rfl | hch2
          · exact List.mem_cons_self _ _
          · exact List.mem_cons_of_mem _
              (ih seg (by rw [hS]; exact List.mem_cons_self _ _) ch hch2)
        · intro ch hch
          exact List.mem_cons_of_mem _
            (ih part (by rw [hS]; exact List.mem_cons_of_mem _ hp2) ch hch)

/-- Appending one non-separator character extends the final segment. -/
theorem splitSub_single_snoc {c d : Char} (hne : d ≠ c) : ∀ (x : Str),
    ∃ P L, splitSub [c] x = P ++ [L] ∧ splitSub [c] (x ++ [d]) = P ++ [L ++ [d]] := by
  intro x
  induction x with
  | nil =>
    refine ⟨[], [], rfl, ?_⟩
    rw [List.nil_append, splitSub_single_cons_not hne]
    rfl
  | cons a x' ih =>
    obtain ⟨P, L, hx, hsnoc⟩ := ih
    by_cases ha : a = c
    · subst ha
      refine ⟨[] :: P, L, ?_, ?_⟩
      · rw [splitSub_single_cons_sep, hx]; rfl
      · rw [List.cons_append, splitSub_single_cons_sep, hsnoc]; rfl
    · cases P with
      | nil =>
        refine ⟨[], a :: L, ?_, ?_⟩
        · rw [splitSub_single_cons_not ha, hx]
          rfl
        · rw [List.cons_append, splitSub_single_cons_not ha, hsnoc]
          simp
      | cons q qs =>
        refine ⟨(a :: q) :: qs, L, ?_, ?_⟩
        · rw [splitSub_single_cons_not ha, hx]
          rfl
        · rw [List.cons_append, splitSub_single_cons_not ha, hsnoc]
          rfl

/-- Every trimmed segment of a newline-terminated line body is newline-free. -/
theorem parts_trim_nl_free {body : Str} (hbody : hasChar '\n' body = false) :
    ∀ part ∈ splitSub [']'] (body ++ ['\n']),
      hasChar '\n' (trimChars [' ', '\n'] part) = false := by
  obtain ⟨P, L, hx, hsnoc⟩ := splitSub_single_snoc (show '\n' ≠ ']' by decide) body
  intro part hp
  rw [hsnoc] at hp
  have hsubfree : ∀ q ∈ splitSub [']'] body, hasChar '\n' q = false := by
    intro q hq
    rw [hasChar_false_iff] at hbody ⊢
    intro hc
    exact hbody (splitSub_single_parts_subset ']' body q hq '\n' hc)
  rcases List.mem_append.mp hp with hp1 | hp2
  · have hpmem : part ∈ splitSub [']'] body := by
      rw [hx]; exact List.mem_append_left _ hp1
    exact hasChar_trimChars_false (hsubfree part hpmem)
  · have hpart : part = L ++ ['\n'] := by simpa using hp2
    subst hpart
    rw [trimChars_suffix_mem (by intro ch hch; simp at hch; subst hch; decide)]
    have hLmem : L ∈ splitSub [']'] body := by
      rw [hx]; exact List.mem_append_right _ (List.mem_singleton.mpr rfl)
    exact hasChar_trimChars_false (hsubfree L hLmem)

/-- Every todo the parser stores from a newline-terminated line satisfies the
storage invariants. -/
theorem ParseTodo_post {listID body : Str} {t : Todo}
    (hbody : hasChar '\n' body = false)
    (h : ParseTodo listID (body ++ ['\n']) = .ok t) :
    todoOkP listID t := by
  unfold ParseTodo at h
  rcases hsplit : splitSub (lit "]") (body ++ ['\n']) with _ | ⟨p0, tail⟩
  · rw [hsplit] at h; exact absurd h (by simp)
  rcases tail with _ | ⟨p1, rest⟩
  · rw [hsplit] at h; exact absurd h (by simp)
  rw [hsplit] at h
  simp only [] at h
  have hp1mem : p1 ∈ splitSub [']'] (body ++ ['\n']) := by
    rw [show ([']'] : Str) = lit "]" from rfl, hsplit]
    exact List.mem_cons_of_mem _ (List.mem_cons_self _ _)
  have hfields : t.listID = listID ∧ t.name = trimChars [' ', '\n'] p1 := by
    by_cases h1 : removeSpaces (p0 ++ lit "]") = lit "-[]"
    · rw [if_pos h1] at h
      cases h
      exact ⟨rfl, rfl⟩
    · rw [if_neg h1] at h
      by_cases h2 : removeSpaces (p0 ++ lit "]") = lit "-[x]"
      · rw [if_pos h2] at h
        cases h
        exact ⟨rfl, rfl⟩
      · rw [if_neg h2] at h
        exact absurd h (by simp)
  obtain ⟨hid, hname⟩ := hfields
  refine ⟨hid, ?_, ?_, ?_⟩
  · rw [hname]; exact trimChars_idem _ _
  · rw [hname]
    apply hasChar_trimChars_false
    exact splitSub_single_parts_free ']' (body ++ ['\n']) p1 hp1mem
  · rw [hname]
    exact parts_trim_nl_free hbody p1 hp1mem

/-! ### Ordered-map lemmas and the parse invariant -/

theorem ordGet_cases (m : Sublists) (k : Str) :
    (∃ e ∈ m, e.1 = k ∧ ordGet m k = e.2) ∨
      (ordGet m k = [] ∧ ∀ e ∈ m, e.1 ≠ k) := by
  unfold ordGet
  cases hf : m.find? (fun e => e.1 == k) with
  | none =>
    right
    refine ⟨rfl, ?_⟩
    intro e he
    have := List.find?_eq_none.mp hf e he
    simpa using this
  | some e =>
    left
    refine ⟨e, List.mem_of_find?_eq_some hf, ?_, rfl⟩
    have := List.find?_some hf
    simpa using this

theorem any_key_iff (m : Sublists) (k : Str) :
    m.any (fun e => e.1 == k) = true ↔ ∃ e ∈ m, e.1 = k := by
  simp [List.any_eq_true]

theorem subsInv_update (m : Sublists) (k : Str) (t : Todo)
    (hm : subsInv m) (ht : todoOkP k t) :
    subsInv (ordSet m k (ordGet m k ++ [t])) := by
  obtain ⟨hvals, hkeys⟩ := hm
  by_cases hany : m.any (fun e => e.1 == k) = true
  · rw [show ordSet m k (ordGet m k ++ [t]) =
        m.map (fun e => if e.1 == k then (k, ordGet m k ++ [t]) else e) by
      unfold ordSet; rw [if_pos hany]]
    constructor
    · intro e' he'
      obtain ⟨e, hem, rfl⟩ := List.mem_map.mp he'
      by_cases hek : (e.1 == k) = true
      · rw [if_pos hek]
        refine ⟨by simp, ?_⟩
        intro t' ht'
        rcases List.mem_append.mp ht' with hold | hnew
        · rcases ordGet_cases m k with ⟨e0, he0, he0k, hget⟩ | ⟨hget, _⟩
          · rw [hget] at hold
            exact he0k ▸ (hvals e0 he0).2 t' hold
          · rw [hget] at hold; cases hold
        · have : t' = t := by simpa using hnew
          subst this
          exact ht
      · rw [if_neg hek]
        exact hvals e hem
    · have : (m.map (fun e => if e.1 == k then (k, ordGet m k ++ [t]) else e)).map Prod.fst =
          m.map Prod.fst := by
        rw [List.map_map]
        apply List.map_congr_left
        intro e he
        by_cases hek : (e.1 == k) = true
        · simp only [Function.comp, if_pos hek]
          exact (beq_iff_eq.mp hek).symm
        · simp only [Function.comp, if_neg hek]
      rw [this]
      exact hkeys
  · have hget : ordGet m k = [] := by
      unfold ordGet
      rw [List.find?_eq_none.mpr]
      intro e he
      intro hc
      exact hany (List.any_eq_true.mpr ⟨e, he, hc⟩)
    rw [show ordSet m k (ordGet m k ++ [t]) = m ++ [(k, ordGet m k ++ [t])] by
      unfold ordSet; rw [if_neg hany]]
    rw [hget]
    constructor
    · intro e he
      rcases List.mem_append.mp he with hm1 | hm2
      · exact hvals e hm1
      · have : e = (k, [t]) := by simpa using hm2
        subst this
        refine ⟨by simp, ?_⟩
        intro t' ht'
        have : t' = t := by simpa using ht'
        subst this
        exact ht
    · rw [List.map_append]
      simp only [List.map_cons, List.map_nil]
      rw [List.nodup_append]
      refine ⟨hkeys, List.nodup_singleton _, ?_⟩
      intro a ha hb
      have hak : a = k := by simpa using hb
      subst hak
      obtain ⟨e, he, hek⟩ := List.mem_map.mp ha
      exact hany (List.any_eq_true.mpr ⟨e, he, by simp [hek]⟩)

theorem readLines_shape : ∀ (s acc : Str), hasChar '\n' acc = false →
    ∀ l ∈ readLinesGo acc s, ∃ body, l = body ++ ['\n'] ∧ hasChar '\n' body = false := by
  intro s
  induction s with
  | nil => intro acc _ l hl; cases hl
  | cons c rest ih =>
    intro acc hacc l hl
    by_cases hc : c = '\n'
    · subst hc
      rw [show readLinesGo acc ('\n' :: rest) = (acc ++ ['\n']) :: readLinesGo [] rest by
        simp [readLinesGo]] at hl
      rcases List.mem_cons.mp hl with rfl | hl2
      · exact ⟨acc, rfl, hacc⟩
      · exact ih [] rfl l hl2
    · rw [show readLinesGo acc (c :: rest) = readLinesGo (acc ++ [c]) rest by
        simp [readLinesGo, hc]] at hl
      refine ih (acc ++ [c]) ?_ l hl
      rw [hasChar_append, hacc]
      simp [hasChar, hc]

theorem parseLines_inv : ∀ (lines : List Str) (stack : List ListName) (acc subs : Sublists),
    (∀ l ∈ lines, ∃ body, l = body ++ ['\n'] ∧ hasChar '\n' body = false) →
    subsInv acc → parseLines stack acc lines = .ok subs → subsInv subs := by
  intro lines
  induction lines with
  | nil =>
    intro stack acc subs _ hacc h
    have : acc = subs := by simpa [parseLines] using h
    subst this
    exact hacc
  | cons line rest ih =>
    intro stack acc subs hshape hacc h
    obtain ⟨body, rfl, hbody⟩ := hshape line (List.mem_cons_self _ _)
    have hrest : ∀ l ∈ rest, ∃ b, l = b ++ ['\n'] ∧ hasChar '\n' b = false :=
      fun l hl => hshape l (List.mem_cons_of_mem _ hl)
    cases body with
    | nil =>
      rw [show parseLines stack acc (([] ++ ['\n']) :: rest) =
          parseLines stack acc rest by simp [parseLines]] at h
      exact ih stack acc subs hrest hacc h
    | cons b0 body' =>
      by_cases hb0 : b0 = '\n'
      · exact absurd (by simp [hasChar_cons, hb0] : hasChar '\n' (b0 :: body') ≠ false)
          (by simpa using hbody)
      · by_cases hhash : b0 = '#'
        · subst hhash
          rw [show parseLines stack acc ((('#' :: body') ++ ['\n']) :: rest) =
              parseLines (stepHeading stack (('#' :: body') ++ ['\n'])) acc rest by
            simp [parseLines]] at h
          exact ih _ acc subs hrest hacc h
        · rw [show parseLines stack acc (((b0 :: body') ++ ['\n']) :: rest) =
              (match ParseTodo (joinSep listSep (stack.map ListName.name))
                  ((b0 :: body') ++ ['\n']) with
               | .error e => .error e
               | .ok todo =>
                 parseLines stack
                   (ordSet acc (joinSep listSep (stack.map ListName.name))
                     (ordGet acc (joinSep listSep (stack.map ListName.name)) ++ [todo]))
                   rest) by
            simp [parseLines, hb0, hhash]] at h
          cases hp : ParseTodo (joinSep listSep (stack.map ListName.name))
              ((b0 :: body') ++ ['\n']) with
          | error e => rw [hp] at h; exact absurd h (by simp)
          | ok todo =>
            rw [hp] at h
            have hpost := ParseTodo_post hbody hp
            exact ih stack _ subs hrest
              (subsInv_update acc _ todo hacc hpost) h

/-- The parser's result always satisfies the storage invariants. -/
theorem parseList_inv {doc : Str} {subs : Sublists}
    (h : parseList doc = .ok subs) : subsInv subs := by
  refine parseLines_inv (readLines doc) [] [] subs ?_ ?_ h
  · exact fun l hl => readLines_shape doc [] rfl l hl
  · exact ⟨fun e he => absurd he (List.not_mem_nil e), List.nodup_nil⟩

/-! ### Stack reconstruction lemmas -/

theorem stackOf_map_name : ∀ (cs : List Str) (d : Nat),
    (stackOf d cs).map ListName.name = cs := by
  intro cs
  induction cs with
  | nil => intro d; rfl
  | cons c cs' ih => intro d; simp [stackOf, ih]

theorem stackOf_append : ∀ (xs : List Str) (d : Nat) (y : Str),
    stackOf d (xs ++ [y]) = stackOf d xs ++ [{ name := y, depth := d + xs.length }] := by
  intro xs
  induction xs with
  | nil => intro d y; simp [stackOf]
  | cons c xs' ih =>
    intro d y
    have h1 : stackOf d ((c :: xs') ++ [y]) =
        { name := c, depth := d } :: stackOf (d + 1) (xs' ++ [y]) := rfl
    rw [h1, ih (d + 1) y]
    have h2 : d + 1 + xs'.length = d + (c :: xs').length := by
      simp only [List.length_cons]; omega
    rw [h2]
    rfl

theorem stackOf_getLast_depth (xs : List Str) (d : Nat) (y : Str) :
    ((stackOf d (xs ++ [y])).getLast?.map ListName.depth).getD 0 = d + xs.length := by
  rw [stackOf_append, List.getLast?_concat]
  rfl

theorem stackOf_take : ∀ (i : Nat) (cs : List Str) (d : Nat),
    stackOf d cs = stackOf d (cs.take i) ++ stackOf (d + i) (cs.drop i) := by
  intro i
  induction i with
  | zero => intro cs d; simp [stackOf]
  | succ i ih =>
    intro cs d
    cases cs with
    | nil => simp [stackOf]
    | cons c cs' =>
      simp only [List.take_succ_cons, List.drop_succ_cons, stackOf, List.cons_append]
      have h : d + (i + 1) = d + 1 + i := by omega
      rw [h, ← ih cs' (d + 1)]

theorem stackOf_depth_ge : ∀ (cs : List Str) (d : Nat), ∀ ln ∈ stackOf d cs, d ≤ ln.depth := by
  intro cs
  induction cs with
  | nil => intro d ln h; cases h
  | cons c cs' ih =>
    intro d ln h
    rcases List.mem_cons.mp h with rfl | h2
    · exact Nat.le_refl _
    · exact Nat.le_of_succ_le (ih (d + 1) ln h2)

theorem stackOf_dropLast (cs : List Str) (d : Nat) :
    (stackOf d cs).dropLast = stackOf d cs.dropLast := by
  rcases List.eq_nil_or_concat cs with rfl | ⟨xs, y, hcs⟩
  · rfl
  · rw [List.concat_eq_append] at hcs
    subst hcs
    rw [stackOf_append, List.dropLast_concat, List.dropLast_concat]

theorem popWhileGE_skip (k : Nat) : ∀ (C D : List ListName),
    (∀ x ∈ C, k ≤ x.depth) → popWhileGE k (C ++ D) = popWhileGE k D := by
  intro C
  induction C with
  | nil => intro D _; rfl
  | cons x C' ih =>
    intro D h
    rw [List.cons_append,
      show popWhileGE k (x :: (C' ++ D)) =
        if x.depth ≥ k then popWhileGE k (C' ++ D) else x :: (C' ++ D) from rfl,
      if_pos (h x (List.mem_cons_self _ _))]
    exact ih D (fun z hz => h z (List.mem_cons_of_mem _ hz))

theorem popWhileGE_stop (k : Nat) (x : ListName) (D : List ListName) (h : x.depth < k) :
    popWhileGE k (x :: D) = x :: D := by
  rw [show popWhileGE k (x :: D) =
    if x.depth ≥ k then popWhileGE k D else x :: D from rfl,
    if_neg (by omega)]

theorem popPart (k : Nat) (prev : List Str) (hk1 : 1 ≤ k) (hkp : k ≤ prev.length) :
    popWhileGE k (stackOf 1 prev).reverse = (stackOf 1 (prev.take (k - 1))).reverse := by
  have hsplit := stackOf_take (k - 1) prev 1
  rw [hsplit, List.reverse_append]
  rw [popWhileGE_skip k _ _ (by
    intro x hx
    have := stackOf_depth_ge (prev.drop (k - 1)) (1 + (k - 1)) x (List.mem_reverse.mp hx)
    omega)]
  by_cases hk : k = 1
  · subst hk
    simp [stackOf, popWhileGE]
  · have hk2 : 2 ≤ k := by omega
    have htake : (prev.take (k - 1)).length = k - 1 := by
      rw [List.length_take]
      omega
    rcases List.eq_nil_or_concat (prev.take (k - 1)) with hnil | ⟨xs, y, hxs⟩
    · rw [hnil] at htake
      simp at htake
      omega
    · rw [List.concat_eq_append] at hxs
      rw [hxs, stackOf_append, List.reverse_append, List.reverse_singleton,
        List.singleton_append]
      have hxslen : xs.length = k - 2 := by
        have := congrArg List.length hxs
        simp at this
        omega
      rw [popWhileGE_stop k _ _ (by simp [hxslen]; omega)]

theorem stackStep (prev xs : List Str) (y : Str)
    (hlen : xs.length + 1 ≤ prev.length + 1)
    (hpre : xs = prev.take xs.length) :
    stepHeadingND (stackOf 1 prev) y (xs.length + 1) = stackOf 1 (xs ++ [y]) := by
  rcases List.eq_nil_or_concat prev with rfl | ⟨zs, z, hprev⟩
  · have hxs : xs = [] := by simpa using hpre
    subst hxs
    rfl
  · rw [List.concat_eq_append] at hprev
    subst hprev
    have htop : (((stackOf 1 (zs ++ [z])).getLast?.map ListName.depth).getD 0) =
        1 + zs.length := stackOf_getLast_depth zs 1 z
    have hn : (zs ++ [z]).length = zs.length + 1 := by simp
    unfold stepHeadingND
    simp only [htop]
    by_cases hgt : xs.length + 1 > 1 + zs.length
    · have hxlen : xs.length = zs.length + 1 := by omega
      rw [if_pos hgt]
      have hxs : xs = zs ++ [z] := by
        rw [hpre, hxlen, ← hn, List.take_length]
      subst hxs
      rw [stackOf_append (zs ++ [z]) 1 y]
      have hd2 : (zs ++ [z]).length + 1 = 1 + (zs ++ [z]).length := by omega
      rw [hd2]
    · rw [if_neg hgt]
      by_cases heq : xs.length + 1 = 1 + zs.length
      · rw [if_pos heq]
        have hxlen : xs.length = zs.length := by omega
        have hxs : xs = zs := by
          rw [hpre, hxlen, List.take_append_of_le_length (Nat.le_refl _), List.take_length]
        subst hxs
        rw [stackOf_dropLast, List.dropLast_concat, stackOf_append xs 1 y]
        have hd2 : xs.length + 1 = 1 + xs.length := by omega
        rw [hd2]
      · rw [if_neg heq]
        have hk1 : 1 ≤ xs.length + 1 := by omega
        have hkp : xs.length + 1 ≤ (zs ++ [z]).length := by
          rw [hn]; omega
        rw [popPart _ _ hk1 hkp, List.reverse_reverse]
        have hTake : (zs ++ [z]).take ((xs.length + 1) - 1) = xs := by
          rw [show (xs.length + 1) - 1 = xs.length from rfl, ← hpre]
        rw [hTake, stackOf_append xs 1 y]
        have hd2 : xs.length + 1 = 1 + xs.length := by omega
        rw [hd2]

/-! ### Reading back the dumped text line by line -/

theorem readLines_line {body : Str} (hbody : hasChar '\n' body = false) :
    ∀ (acc rest : Str),
    readLinesGo acc (body ++ '\n' :: rest) = (acc ++ body ++ ['\n']) :: readLinesGo [] rest := by
  induction body with
  | nil =>
    intro acc rest
    simp [readLinesGo]
  | cons b body' ih =>
    intro acc rest
    rcases hasChar_cons_false hbody with ⟨hb, hrest⟩
    rw [List.cons_append]
    have hstep : readLinesGo acc (b :: (body' ++ '\n' :: rest)) =
        readLinesGo (acc ++ [b]) (body' ++ '\n' :: rest) := by
      simp only [readLinesGo]
      rw [if_neg hb]
    rw [hstep, ih hrest (acc ++ [b]) rest]
    simp

theorem render_no_nl {t : Todo} (h : hasChar '\n' t.name = false) :
    hasChar '\n' t.render = false := by
  rw [hasChar_false_iff] at h ⊢
  intro hmem
  unfold Todo.render at hmem
  cases hc : t.completed <;> rw [hc] at hmem
  · rcases List.mem_append.mp hmem with h1 | h2
    · exact absurd h1 (by decide)
    · exact h h2
  · rcases List.mem_append.mp hmem with h1 | h2
    · exact absurd h1 (by decide)
    · exact h h2

theorem readLines_todoBlock : ∀ (ts : List Todo) (tail : Str),
    (∀ t ∈ ts, hasChar '\n' t.name = false) →
    readLinesGo [] (List.flatten (ts.map (fun t => t.render ++ ['\n'])) ++ tail) =
      (ts.map (fun t => t.render ++ ['\n'])) ++ readLinesGo [] tail := by
  intro ts
  induction ts with
  | nil => intro tail _; simp
  | cons t ts' ih =>
    intro tail hts
    have hname := hts t (List.mem_cons_self _ _)
    have hrender := render_no_nl hname
    rw [List.map_cons, List.flatten_cons]
    rw [show (t.render ++ ['\n']) ++ (ts'.map (fun t => t.render ++ ['\n'])).flatten ++ tail =
        t.render ++ '\n' :: ((ts'.map (fun t => t.render ++ ['\n'])).flatten ++ tail) by
      simp]
    rw [readLines_line hrender [] _]
    rw [ih tail (fun x hx => hts x (List.mem_cons_of_mem _ hx))]
    simp

/-! ### Stepping the parser over dumped lines -/

theorem parseLines_nl (stack : List ListName) (m : Sublists) (rest : List Str) :
    parseLines stack m (['\n'] :: rest) = parseLines stack m rest := rfl

theorem parseLines_heading (stack : List ListName) (m : Sublists) (tl : Str)
    (rest : List Str) :
    parseLines stack m (('#' :: tl) :: rest) =
      parseLines (stepHeading stack ('#' :: tl)) m rest := rfl

theorem parseLines_todo (stack : List ListName) (m : Sublists) (c : Char) (tl : Str)
    (rest : List Str) (hc1 : c ≠ '\n') (hc2 : c ≠ '#') :
    parseLines stack m ((c :: tl) :: rest) =
      match ParseTodo (joinSep listSep (stack.map ListName.name)) (c :: tl) with
      | .error e => .error e
      | .ok todo =>
        parseLines stack
          (ordSet m (joinSep listSep (stack.map ListName.name))
            (ordGet m (joinSep listSep (stack.map ListName.name)) ++ [todo])) rest := by
  simp only [parseLines]
  rw [if_neg hc1, if_neg hc2]

theorem find?_append_last {acc : Sublists} {p : Str}
    (hfresh : ∀ e ∈ acc, e.1 ≠ p) (v : List Todo) :
    (acc ++ [(p, v)]).find? (fun e => e.1 == p) = some (p, v) := by
  induction acc with
  | nil => simp [List.find?]
  | cons e acc' ih =>
    have hep : (e.1 == p) = false := by simp [hfresh e (List.mem_cons_self _ _)]
    rw [List.cons_append, List.find?_cons, hep]
    exact ih (fun x hx => hfresh x (List.mem_cons_of_mem _ hx))

theorem ordGet_append_last {acc : Sublists} {p : Str}
    (hfresh : ∀ e ∈ acc, e.1 ≠ p) (v : List Todo) :
    ordGet (acc ++ [(p, v)]) p = v := by
  unfold ordGet
  rw [find?_append_last hfresh v]

theorem ordSet_append_last {acc : Sublists} {p : Str}
    (hfresh : ∀ e ∈ acc, e.1 ≠ p) (old v : List Todo) :
    ordSet (acc ++ [(p, old)]) p v = acc ++ [(p, v)] := by
  unfold ordSet
  rw [if_pos (List.any_eq_true.mpr ⟨(p, old), by simp, by simp⟩)]
  rw [List.map_append]
  congr 1
  · have hcongr : List.map (fun e => if (e.1 == p) = true then (p, v) else e) acc =
        List.map id acc :=
      List.map_congr_left (fun e he => by rw [if_neg (by simp [hfresh e he])]; rfl)
    rw [hcongr, List.map_id]
  · simp

theorem ordGet_absent {m : Sublists} {p : Str} (hfresh : ∀ e ∈ m, e.1 ≠ p) :
    ordGet m p = [] := by
  unfold ordGet
  rw [List.find?_eq_none.mpr (by intro e he; simp [hfresh e he])]

theorem ordSet_absent {m : Sublists} {p : Str} (hfresh : ∀ e ∈ m, e.1 ≠ p)
    (v : List Todo) : ordSet m p v = m ++ [(p, v)] := by
  unfold ordSet
  rw [if_neg (by
    intro hany
    obtain ⟨e, he, hek⟩ := List.any_eq_true.mp hany
    exact hfresh e he (by simpa using hek))]

theorem parseTodoLines (stack : List ListName) (p : Str)
    (hjoin : joinSep listSep (stack.map ListName.name) = p) :
    ∀ (ts done : List Todo) (acc : Sublists) (restLines : List Str),
    (∀ t ∈ ts, todoOkP p t) →
    (∀ e ∈ acc, e.1 ≠ p) →
    parseLines stack (acc ++ [(p, done)])
        ((ts.map (fun t => t.render ++ ['\n'])) ++ restLines) =
      parseLines stack (acc ++ [(p, done ++ ts)]) restLines := by
  intro ts
  induction ts with
  | nil => intro done acc restLines _ _; simp
  | cons t ts' ih =>
    intro done acc restLines hok hfresh
    have htok := hok t (List.mem_cons_self _ _)
    obtain ⟨hid, htrim, hbr, hnl⟩ := htok
    obtain ⟨tl, htl⟩ : ∃ tl, t.render ++ ['\n'] = '-' :: tl := by
      cases hc : t.completed
      · refine ⟨' ' :: '[' :: ' ' :: ']' :: ' ' :: (t.name ++ ['\n']), ?_⟩
        unfold Todo.render
        rw [hc]
        rfl
      · refine ⟨' ' :: '[' :: 'x' :: ']' :: ' ' :: (t.name ++ ['\n']), ?_⟩
        unfold Todo.render
        rw [hc]
        rfl
    rw [List.map_cons, List.cons_append, htl,
      parseLines_todo _ _ _ _ _ (by decide) (by decide), ← htl, hjoin]
    have hparse : ParseTodo p (t.render ++ ['\n']) =
        .ok { listID := p, name := t.name, completed := t.completed } :=
      ParseTodo_render p t ['\n'] htrim hbr
        (by intro c hc; simp at hc; subst hc; decide) (by decide)
    have hteq : ({ listID := p, name := t.name, completed := t.completed } : Todo) = t := by
      obtain ⟨tid, tname, tcomp⟩ := t
      simp only at hid
      rw [hid]
    rw [hparse]
    simp only [hteq]
    rw [ordGet_append_last hfresh done, ordSet_append_last hfresh done (done ++ [t])]
    rw [ih (done ++ [t]) acc restLines
      (fun x hx => hok x (List.mem_cons_of_mem _ hx)) hfresh]
    rw [List.append_assoc]
    rfl

/-! ### Heading round trip and group reconstruction -/

theorem headerDepth_hashes : ∀ (k i : Nat) (X : Str),
    headerDepthAux i (hashes k ++ ' ' :: X) = i + k := by
  intro k
  induction k with
  | zero =>
    intro i X
    show headerDepthAux i (' ' :: X) = i
    simp [headerDepthAux]
  | succ k ih =>
    intro i X
    rw [show hashes (k + 1) = '#' :: hashes k by simp [hashes, List.replicate_succ]]
    rw [List.cons_append,
      show headerDepthAux i ('#' :: (hashes k ++ ' ' :: X)) =
        headerDepthAux (i + 1) (hashes k ++ ' ' :: X) by simp [headerDepthAux]]
    rw [ih (i + 1) X]
    omega

theorem hashes_no_nl (n : Nat) : hasChar '\n' (hashes n) = false := by
  rw [hasChar_false_iff]
  intro hmem
  have := List.eq_of_mem_replicate hmem
  exact absurd this (by decide)

theorem getHeader_dump (k : Nat) (leaf : Str)
    (hclean : trimChars headerCut leaf = leaf) :
    getHeaderWithDepth (hashes k ++ ' ' :: (leaf ++ ['\n'])) = (leaf, k) := by
  unfold getHeaderWithDepth
  have hdep : headerDepthAux 0 (hashes k ++ ' ' :: (leaf ++ ['\n'])) = k := by
    rw [headerDepth_hashes k 0 (leaf ++ ['\n'])]
    omega
  have htr : trimChars headerCut (hashes k ++ ' ' :: (leaf ++ ['\n'])) = leaf := by
    have hpre : ∀ c ∈ (hashes k ++ [' ']), hasChar c headerCut = true := by
      intro c hc
      rcases List.mem_append.mp hc with h1 | h2
      · have := List.eq_of_mem_replicate h1
        subst this
        decide
      · have : c = ' ' := by simpa using h2
        subst this
        decide
    have hs := @trimChars_sandwich headerCut (hashes k ++ [' ']) ['\n'] leaf hpre
      (by intro c hc; simp at hc; subst hc; decide) hclean
    rw [show hashes k ++ ' ' :: (leaf ++ ['\n']) = (hashes k ++ [' ']) ++ leaf ++ ['\n'] by
      simp]
    exact hs
  rw [htr, hdep]

theorem parseGroupLines (prev : List Str) (acc : Sublists) (p : Str) (ts : List Todo)
    (restLines : List Str)
    (hlen : (comps p).length ≤ prev.length + 1)
    (hpre : (comps p).dropLast = prev.take ((comps p).length - 1))
    (hleaf : cleanLeaf p) (hts : ts ≠ []) (htso : ∀ t ∈ ts, todoOkP p t)
    (hfresh : ∀ e ∈ acc, e.1 ≠ p) :
    parseLines (stackOf 1 prev) acc
      ((hashes (comps p).length ++ [' '] ++ leafOf p ++ ['\n']) ::
        (ts.map (fun t => t.render ++ ['\n']) ++ restLines)) =
      parseLines (stackOf 1 (comps p)) (acc ++ [(p, ts)]) restLines := by
  have hcs : comps p ≠ [] := splitSub_ne_nil _ _
  rcases List.eq_nil_or_concat (comps p) with hnil | ⟨xs, y, hxs⟩
  · exact absurd hnil hcs
  rw [List.concat_eq_append] at hxs
  have hleafy : leafOf p = y := by rw [leafOf, hxs, List.getLastD_concat]
  have hklen : (comps p).length = xs.length + 1 := by rw [hxs]; simp
  have hxspre : xs = prev.take xs.length := by
    have h := hpre
    rw [hxs, List.dropLast_concat] at h
    rw [show (xs ++ [y]).length - 1 = xs.length by simp] at h
    exact h
  have hlen' : xs.length + 1 ≤ prev.length + 1 := by rw [← hklen]; exact hlen
  have hline : hashes (comps p).length ++ [' '] ++ leafOf p ++ ['\n'] =
      '#' :: (hashes (xs.length) ++ [' '] ++ leafOf p ++ ['\n']) := by
    rw [hklen, show hashes (xs.length + 1) = '#' :: hashes xs.length by
      simp [hashes, List.replicate_succ]]
    simp
  rw [hline, parseLines_heading]
  have hstep : stepHeading (stackOf 1 prev)
      ('#' :: (hashes (xs.length) ++ [' '] ++ leafOf p ++ ['\n'])) = stackOf 1 (comps p) := by
    rw [← hline]
    unfold stepHeading
    rw [show hashes (comps p).length ++ [' '] ++ leafOf p ++ ['\n'] =
        hashes (comps p).length ++ ' ' :: (leafOf p ++ ['\n']) by simp]
    rw [getHeader_dump _ _ hleaf.1]
    simp only []
    rw [hleafy, hklen]
    rw [stackStep prev xs y hlen' hxspre, ← hxs]
  rw [hstep]
  rcases ts with _ | ⟨t0, ts2⟩
  · exact absurd rfl hts
  have hjoin : joinSep listSep ((stackOf 1 (comps p)).map ListName.name) = p := by
    rw [stackOf_map_name]
    exact join_split p
  have ht0 := htso t0 (List.mem_cons_self _ _)
  obtain ⟨hid0, htrim0, hbr0, hnl0⟩ := ht0
  obtain ⟨tl, htl⟩ : ∃ tl, t0.render ++ ['\n'] = '-' :: tl := by
    cases hc : t0.completed
    · refine ⟨' ' :: '[' :: ' ' :: ']' :: ' ' :: (t0.name ++ ['\n']), ?_⟩
      unfold Todo.render
      rw [hc]
      rfl
    · refine ⟨' ' :: '[' :: 'x' :: ']' :: ' ' :: (t0.name ++ ['\n']), ?_⟩
      unfold Todo.render
      rw [hc]
      rfl
  rw [List.map_cons, List.cons_append, htl,
    parseLines_todo _ _ _ _ _ (by decide) (by decide), ← htl, hjoin]
  have hparse0 : ParseTodo p (t0.render ++ ['\n']) =
      .ok { listID := p, name := t0.name, completed := t0.completed } :=
    ParseTodo_render p t0 ['\n'] htrim0 hbr0
      (by intro c hc; simp at hc; subst hc; decide) (by decide)
  have ht0eq : ({ listID := p, name := t0.name, completed := t0.completed } : Todo) = t0 := by
    obtain ⟨tid, tname, tcomp⟩ := t0
    simp only at hid0
    rw [hid0]
  rw [hparse0]
  simp only [ht0eq]
  rw [ordGet_absent hfresh, ordSet_absent hfresh]
  simp only [List.nil_append]
  rw [parseTodoLines (stackOf 1 (comps p)) p hjoin ts2 [t0] acc restLines
    (fun x hx => htso x (List.mem_cons_of_mem _ hx)) hfresh]
  rfl

theorem parseGroups : ∀ (gs : Sublists) (prev : List Str) (acc : Sublists),
    chainCond prev gs →
    (∀ e ∈ gs, cleanLeaf e.1 ∧ e.2 ≠ [] ∧ ∀ t ∈ e.2, todoOkP e.1 t) →
    ((acc ++ gs).map Prod.fst).Nodup →
    parseLines (stackOf 1 prev) acc
      (readLines (joinSep ['\n'] (gs.map (dumpGroup false)))) = .ok (acc ++ gs) := by
  intro gs
  induction gs with
  | nil =>
    intro prev acc _ _ _
    simp [readLines, readLinesGo, parseLines, joinSep]
  | cons g gs' ih =>
    obtain ⟨p, ts⟩ := g
    intro prev acc hchain hgood hnodup
    obtain ⟨hlen, hpre, hchain'⟩ := hchain
    obtain ⟨hleaf, hts, htso⟩ := hgood (p, ts) (List.mem_cons_self _ _)
    have hgood' : ∀ e ∈ gs', cleanLeaf e.1 ∧ e.2 ≠ [] ∧ ∀ t ∈ e.2, todoOkP e.1 t :=
      fun e he => hgood e (List.mem_cons_of_mem _ he)
    have hfresh : ∀ e ∈ acc, e.1 ≠ p := by
      intro e he hep
      have h1 : e.1 ∈ acc.map Prod.fst := List.mem_map_of_mem _ he
      have hsplit : ((acc ++ (p, ts) :: gs').map Prod.fst) =
          acc.map Prod.fst ++ (p :: gs'.map Prod.fst) := by simp
      rw [hsplit] at hnodup
      obtain ⟨-, -, hdisj⟩ := List.nodup_append.mp hnodup
      exact hdisj h1 (by rw [hep]; exact List.mem_cons_self _ _)
    have hnamesnl : ∀ t ∈ ts, hasChar '\n' t.name = false :=
      fun t ht => (htso t ht).2.2.2
    have hheadnl : hasChar '\n' (hashes (comps p).length ++ [' '] ++ leafOf p) = false := by
      rw [hasChar_append, hasChar_append, hashes_no_nl, hleaf.2]
      rfl
    have hdump : dumpGroup false (p, ts) =
        (hashes (comps p).length ++ [' '] ++ leafOf p) ++ '\n' ::
          List.flatten (ts.map (fun t => t.render ++ ['\n'])) := by
      unfold dumpGroup
      have hfilter : ts.filter (fun t => !false || !t.completed) = ts := by simp
      rw [hfilter]
      show hashes (comps p).length ++ [' '] ++ leafOf p ++ ['\n'] ++ _ = _
      simp [List.append_assoc]
    cases gs' with
    | nil =>
      rw [show joinSep ['\n'] (((p, ts) :: []).map (dumpGroup false)) =
          dumpGroup false (p, ts) from rfl, hdump]
      rw [show readLines ((hashes (comps p).length ++ [' '] ++ leafOf p) ++ '\n' ::
            (ts.map (fun t => t.render ++ ['\n'])).flatten) =
          ((hashes (comps p).length ++ [' '] ++ leafOf p) ++ ['\n']) ::
            readLinesGo [] ((ts.map (fun t => t.render ++ ['\n'])).flatten) by
        unfold readLines
        rw [readLines_line hheadnl [] _]
        simp]
      have hblock : readLinesGo [] ((ts.map (fun t => t.render ++ ['\n'])).flatten) =
          ts.map (fun t => t.render ++ ['\n']) := by
        have := readLines_todoBlock ts [] hnamesnl
        simpa [readLinesGo] using this
      rw [hblock]
      rw [show ((hashes (comps p).length ++ [' '] ++ leafOf p) ++ ['\n']) =
          (hashes (comps p).length ++ [' '] ++ leafOf p ++ ['\n']) by simp]
      rw [show (ts.map (fun t => t.render ++ ['\n'])) =
          (ts.map (fun t => t.render ++ ['\n']) ++ ([] : List Str)) by simp]
      rw [parseGroupLines prev acc p ts [] hlen hpre hleaf hts htso hfresh]
      simp [parseLines]
    | cons g2 rest2 =>
      rw [show joinSep ['\n'] (((p, ts) :: g2 :: rest2).map (dumpGroup false)) =
          dumpGroup false (p, ts) ++ ['\n'] ++
            joinSep ['\n'] ((g2 :: rest2).map (dumpGroup false)) from rfl, hdump]
      rw [show ((hashes (comps p).length ++ [' '] ++ leafOf p) ++ '\n' ::
            (ts.map (fun t => t.render ++ ['\n'])).flatten) ++ ['\n'] ++
            joinSep ['\n'] ((g2 :: rest2).map (dumpGroup false)) =
          (hashes (comps p).length ++ [' '] ++ leafOf p) ++ '\n' ::
            ((ts.map (fun t => t.render ++ ['\n'])).flatten ++
              ('\n' :: joinSep ['\n'] ((g2 :: rest2).map (dumpGroup false)))) by
        simp]
      rw [show readLines ((hashes (comps p).length ++ [' '] ++ leafOf p) ++ '\n' ::
            ((ts.map (fun t => t.render ++ ['\n'])).flatten ++
              ('\n' :: joinSep ['\n'] ((g2 :: rest2).map (dumpGroup false))))) =
          ((hashes (comps p).length ++ [' '] ++ leafOf p) ++ ['\n']) ::
            readLinesGo [] ((ts.map (fun t => t.render ++ ['\n'])).flatten ++
              ('\n' :: joinSep ['\n'] ((g2 :: rest2).map (dumpGroup false)))) by
        unfold readLines
        rw [readLines_line hheadnl [] _]
        simp]
      rw [readLines_todoBlock ts _ hnamesnl]
      rw [show readLinesGo []
            ('\n' :: joinSep ['\n'] ((g2 :: rest2).map (dumpGroup false))) =
          ['\n'] :: readLinesGo []
            (joinSep ['\n'] ((g2 :: rest2).map (dumpGroup false))) by
        have := @readLines_line [] rfl []
          (joinSep ['\n'] ((g2 :: rest2).map (dumpGroup false)))
        simpa using this]
      rw [show ((hashes (comps p).length ++ [' '] ++ leafOf p) ++ ['\n']) =
          (hashes (comps p).length ++ [' '] ++ leafOf p ++ ['\n']) by simp]
      rw [show (ts.map (fun t => t.render ++ ['\n']) ++ ['\n'] ::
            readLinesGo [] (joinSep ['\n'] ((g2 :: rest2).map (dumpGroup false)))) =
          (ts.map (fun t => t.render ++ ['\n']) ++ (['\n'] ::
            readLinesGo [] (joinSep ['\n'] ((g2 :: rest2).map (dumpGroup false))))) from rfl]
      rw [parseGroupLines prev acc p ts _ hlen hpre hleaf hts htso hfresh]
      rw [parseLines_nl]
      have hnodup' : (((acc ++ [(p, ts)]) ++ (g2 :: rest2)).map Prod.fst).Nodup := by
        rw [show (acc ++ [(p, ts)]) ++ (g2 :: rest2) = acc ++ ((p, ts) :: g2 :: rest2) by
          simp]
        exact hnodup
      have := ih (comps p) (acc ++ [(p, ts)]) hchain' hgood' hnodup'
      rw [show readLinesGo [] (joinSep ['\n'] ((g2 :: rest2).map (dumpGroup false))) =
          readLines (joinSep ['\n'] ((g2 :: rest2).map (dumpGroup false))) from rfl]
      rw [this]
      rw [show (acc ++ [(p, ts)]) ++ (g2 :: rest2) = acc ++ ((p, ts) :: g2 :: rest2) by
        simp]

/-- Claim C3, counterexample: parse–serialize–parse is **not** an equivalence
in general.  In `# B / ## X / t1 / # X / t2` the group `B:@>X` loses its
ancestor `B` on dump (B has no direct todos, so no `B` group exists); on
re-parse the dumped `## X` group and the later `# X` group collapse into a
single `X` group, merging their todos — not a mere depth renumbering. -/
theorem claim3_counterexample :
    parseList (lit "# B\n## X\n- [] t1\n# X\n- [] t2\n") =
      .ok [(lit "B:@>X", [{ listID := lit "B:@>X", name := lit "t1", completed := false }]),
           (lit "X", [{ listID := lit "X", name := lit "t2", completed := false }])] ∧
    DrList.Dump
        { name := lit "d",
          sublists :=
            [(lit "B:@>X", [{ listID := lit "B:@>X", name := lit "t1", completed := false }]),
             (lit "X", [{ listID := lit "X", name := lit "t2", completed := false }])] }
        false = lit "## X\n- [ ] t1\n\n# X\n- [ ] t2\n" ∧
    parseList (lit "## X\n- [ ] t1\n\n# X\n- [ ] t2\n") =
      .ok [(lit "X", [{ listID := lit "X", name := lit "t1", completed := false },
                      { listID := lit "X", name := lit "t2", completed := false }])] ∧
    ([(lit "X", [{ listID := lit "X", name := lit "t1", completed := false },
                 { listID := lit "X", name := lit "t2", completed := false }])] : Sublists) ≠
      [(lit "B:@>X", [{ listID := lit "B:@>X", name := lit "t1", completed := false }]),
       (lit "X", [{ listID := lit "X", name := lit "t2", completed := false }])] := by
  refine ⟨by decide, by decide, by decide, by decide⟩

/-- Claim C3, amended: for every document that parses successfully **and**
whose parsed group sequence is a proper tree traversal — the first group's
path has one component, each successive path extends a prefix of its
predecessor's components by exactly one new leaf, and every leaf component is
clean (fixed under header trimming, no newline) — serializing with
`omitCompleted = false` and re-parsing returns exactly the original sublists
map: same groups, same paths, same todos in the same order.  Without the
traversal condition the claim fails (see the counterexample): groups whose
ancestors had no direct todos lose them on dump, so re-parsing can renumber
depths or merge groups. -/
theorem claim3_amended (doc name : Str) (subs : Sublists)
    (hparse : parseList doc = .ok subs)
    (hchain : chainCond [] subs)
    (hleaf : ∀ e ∈ subs, cleanLeaf e.1) :
    parseList (DrList.Dump { name := name, sublists := subs } false) = .ok subs := by
  have hinv := parseList_inv hparse
  have hgood : ∀ e ∈ subs, cleanLeaf e.1 ∧ e.2 ≠ [] ∧ ∀ t ∈ e.2, todoOkP e.1 t := by
    intro e he
    exact ⟨hleaf e he, (hinv.1 e he).1, (hinv.1 e he).2⟩
  have := parseGroups subs [] [] hchain hgood (by simpa using hinv.2)
  unfold parseList
  rw [show DrList.Dump { name := name, sublists := subs } false =
      joinSep ['\n'] (subs.map (dumpGroup false)) from rfl]
  rw [show stackOf 1 [] = ([] : List ListName) from rfl] at this
  simpa using this

/-- Witness for C3 on a concrete well-nested document. -/
theorem claim3_witness :
    parseList (DrList.Dump
      { name := lit "x",
        sublists :=
          [(lit "A", [{ listID := lit "A", name := lit "t", completed := false }]),
           (lit "A:@>B", [{ listID := lit "A:@>B", name := lit "u", completed := false }])] }
      false) =
    .ok [(lit "A", [{ listID := lit "A", name := lit "t", completed := false }]),
         (lit "A:@>B", [{ listID := lit "A:@>B", name := lit "u", completed := false }])] :=
  claim3_amended (lit "# A\n- [] t\n## B\n- [] u\n") (lit "x")
    [(lit "A", [{ listID := lit "A", name := lit "t", completed := false }]),
     (lit "A:@>B", [{ listID := lit "A:@>B", name := lit "u", completed := false }])]
    (by decide)
    ⟨by decide, by decide, by decide, by decide, trivial⟩
    (by decide)

end DrTodo
